import Mathlib

/-!
# Task manager: the task collection engine

A shallow embedding of the task store of `main.cpp` (`Task`, `User`, the
string/enumeration codecs, the JSON record codec and the queries), of the
deadline classifiers, of the calendar grouping and month grid, and of the row
bookkeeping of the two views, together with the smaller `User` of
`include/User.h` / `src/User.cpp`, and the properties that the specification
states of them.

Conventions of the embedding:

* `std::string` is `String`, a finite sequence of characters compared one by
  one, and `std::vector<T>` is `List T`;
* `std::stack<std::vector<Task>>` is a list whose head is the top of the stack;
* a `size_t` index is a `Nat`, and an `int` counter is an `Int` (a count of
  tasks, which stays far below the range of `int`);
* a C++ exception is the `error` side of an `Except`, or an optional error
  returned next to the state the object is left in;
* the services of the standard library's clock and time parsing are
  parameters (`TimeLib`, `now`); an access outside a vector is `none`.
-/

namespace TaskManager

/-! ## Data model (`main.cpp` 31-37, 104-110; `include/Task.h`) -/

/-- Priority levels, `enum class Priority { Low, Medium, High }`. -/
inductive Priority where
  | Low
  | Medium
  | High
  deriving DecidableEq, Repr

/-- Completion states, `enum class Status { Active, Done }`. -/
inductive Status where
  | Active
  | Done
  deriving DecidableEq, Repr

/-- One task: the six fields of `struct Task`. -/
structure Task where
  title : String
  description : String
  priority : Priority
  status : Status
  deadline : String
  tags : List String
  deriving DecidableEq, Repr

/-- The store of `main.cpp`: `class User` with its task vector and the undo
stack (`history.head?` is `history.top()`). -/
structure User where
  name : String
  tasks : List Task
  history : List (List Task)
  deriving DecidableEq, Repr

namespace User

/-- Constructor `User(const std::string& username)`: no tasks, empty history. -/
def mk_named (username : String) : User :=
  { name := username, tasks := [], history := [] }

/-- Private `save_state`: `history.push(tasks)`. -/
def save_state (u : User) : User :=
  { u with history := u.tasks :: u.history }

/-- Method `add_task`: `save_state(); tasks.push_back(task);`. -/
def add_task (u : User) (task : Task) : User :=
  let u1 := u.save_state
  { u1 with tasks := u1.tasks ++ [task] }

/-- Method `delete_task`: guarded `save_state(); tasks.erase(tasks.begin() + index);`. -/
def delete_task (u : User) (index : Nat) : User :=
  if index < u.tasks.length then
    let u1 := u.save_state
    { u1 with tasks := u1.tasks.eraseIdx index }
  else u

/-- Method `edit_task`: guarded `save_state(); tasks[index] = updated_task;`. -/
def edit_task (u : User) (index : Nat) (updated_task : Task) : User :=
  if index < u.tasks.length then
    let u1 := u.save_state
    { u1 with tasks := u1.tasks.set index updated_task }
  else u

/-- Method `undo`: `if (!history.empty()) { tasks = history.top(); history.pop(); }`. -/
def undo (u : User) : User :=
  match u.history with
  | [] => u
  | top :: rest => { u with tasks := top, history := rest }

/-- Method `get_tasks`. -/
def get_tasks (u : User) : List Task := u.tasks

end User

/-! ## Library models used by the queries -/

/-- Search loop of `std::string::find`: the first position at or after `pos`
(counted in the whole string) where `k` starts in the remaining text `s`;
`none` stands for `std::string::npos`. -/
def string_find_from : List Char → List Char → Nat → Option Nat
  | [], k, pos => if k.isPrefixOf [] then some pos else none
  | c :: cs, k, pos =>
    if k.isPrefixOf (c :: cs) then some pos else string_find_from cs k (pos + 1)

/-- Member `std::string::find(keyword)` with the default start position 0. -/
def string_find (s keyword : String) : Option Nat :=
  string_find_from s.data keyword.data 0

/-- Algorithm `std::find(first, last, value)` over a vector of strings: the
index of the first element equal to `value`, or the length of the rest of the
range (the `end()` iterator) when there is none. -/
def std_find : List String → String → Nat
  | [], _ => 0
  | x :: xs, value => if x = value then 0 else std_find xs value + 1

/-- Underlying value of the enumeration, which is the key order of
`std::map<Priority, int>`. -/
def Priority.toNat : Priority → Nat
  | .Low => 0
  | .Medium => 1
  | .High => 2

/-- Statement `stats[key]++` on a `std::map<Priority, int>` kept as its
key-ordered list of entries: an absent key is inserted with value 0 and then
incremented. The `int` counter is taken as a mathematical integer, which it
equals as long as it stays below `2^31`. -/
def stats_incr : List (Priority × Int) → Priority → List (Priority × Int)
  | [], key => [(key, 0 + 1)]
  | (k, v) :: rest, key =>
    if key = k then (k, v + 1) :: rest
    else if key.toNat < k.toNat then (key, 0 + 1) :: (k, v) :: rest
    else (k, v) :: stats_incr rest key

/-- Lookup `m.find(key)` in the map: the stored count, if the key is present. -/
def stats_lookup : List (Priority × Int) → Priority → Option Int
  | [], _ => none
  | (k, v) :: rest, key => if key = k then some v else stats_lookup rest key

/-- Sum of all counts stored in the map. -/
def stats_total : List (Priority × Int) → Int
  | [] => 0
  | (_, v) :: rest => v + stats_total rest

namespace User

/-- Method `search`: tasks whose title or description contains the keyword,
collected with `push_back` in one pass over `tasks`. -/
def search (u : User) (keyword : String) : List Task :=
  u.tasks.foldl
    (fun result t =>
      if string_find t.title keyword ≠ none ∨ string_find t.description keyword ≠ none then
        result ++ [t]
      else result)
    []

/-- Method `filter_by_tag`: tasks for which `std::find` over the tags does not
reach `end()`. -/
def filter_by_tag (u : User) (tag : String) : List Task :=
  u.tasks.foldl
    (fun result t =>
      if std_find t.tags tag ≠ t.tags.length then result ++ [t] else result)
    []

/-- Method `get_priority_stats`: one `stats[task.priority]++` per task. -/
def get_priority_stats (u : User) : List (Priority × Int) :=
  u.tasks.foldl (fun stats task => stats_incr stats task.priority) []

/-- Method `filter_by_status`. -/
def filter_by_status (u : User) (status : Status) : List Task :=
  u.tasks.foldl
    (fun result task => if task.status = status then result ++ [task] else result)
    []

end User

/-! ## Enumeration codecs (`main.cpp` 44-82) -/

/-- Function `priorityToString`. -/
def priorityToString : Priority → String
  | .Low => "Low"
  | .Medium => "Medium"
  | .High => "High"

/-- Function `statusToString`: `s == Status::Active ? "Active" : "Done"`. -/
def statusToString (s : Status) : String :=
  if s = Status.Active then "Active" else "Done"

/-- Function `stringToPriority`. -/
def stringToPriority (str : String) : Priority :=
  if str = "Low" then Priority.Low
  else if str = "Medium" then Priority.Medium
  else Priority.High

/-- Function `stringToStatus`: `str == "Active" ? Status::Active : Status::Done`. -/
def stringToStatus (str : String) : Status :=
  if str = "Active" then Status.Active else Status.Done

/-! ## JSON records and persistence (`main.cpp` 117-141, 201-218)

The JSON library is external to the repository. Its values are modelled by
`Json`, its exceptions by `JsonError`, and a file is modelled by the document
it holds: `dump` followed by `operator>>` is taken to give back the document
that was written. -/

/-- A JSON value of the library. An object lists its members in key order, as
the library's `std::map` stores them. -/
inductive Json where
  | null
  | bool (b : Bool)
  | num (n : Int)
  | str (s : String)
  | arr (elems : List Json)
  | obj (members : List (String × Json))

/-- The exception classes of the JSON library that the store can meet. -/
inductive JsonError where
  | parse_error
  | type_error
  | out_of_range
  deriving DecidableEq, Repr

namespace Json

/-- Lookup of a key among the members of an object. -/
def lookup (key : String) : List (String × Json) → Option Json
  | [] => none
  | (k, v) :: rest => if k = key then some v else lookup key rest

/-- Checked member access `j.at(key)`: `type_error` on a value that is not an
object, `out_of_range` on a missing key. -/
def at_key (j : Json) (key : String) : Except JsonError Json :=
  match j with
  | .obj members =>
    match lookup key members with
    | some v => .ok v
    | none => .error .out_of_range
  | _ => .error .type_error

/-- Conversion `get<std::string>()`: `type_error` unless the value is a string. -/
def get_string : Json → Except JsonError String
  | .str s => .ok s
  | _ => .error .type_error

/-- Element-wise conversion of an array to strings, first failure wins. -/
def get_strings : List Json → Except JsonError (List String)
  | [] => .ok []
  | x :: xs =>
    match get_string x with
    | .ok s =>
      match get_strings xs with
      | .ok ss => .ok (s :: ss)
      | .error e => .error e
    | .error e => .error e

/-- Conversion `get<std::vector<std::string>>()`: `type_error` unless the
value is an array of strings. -/
def get_string_vector : Json → Except JsonError (List String)
  | .arr elems => get_strings elems
  | _ => .error .type_error

/-- Member `push_back(value)`: a null value becomes a one-element array, an
array is extended, anything else raises `type_error`. -/
def push_back (j value : Json) : Except JsonError Json :=
  match j with
  | .null => .ok (.arr [value])
  | .arr elems => .ok (.arr (elems ++ [value]))
  | _ => .error .type_error

/-- The values a range-based `for` over a JSON value visits: nothing for null,
the elements of an array, the member values of an object, and the value itself
once for any other value. -/
def items : Json → List Json
  | .null => []
  | .arr elems => elems
  | .obj members => members.map Prod.snd
  | j => [j]

end Json

namespace Task

/-- Method `Task::to_json`: the object with the six named members (listed
here in key order). -/
def to_json (t : Task) : Json :=
  .obj [("deadline", .str t.deadline),
        ("description", .str t.description),
        ("priority", .str (priorityToString t.priority)),
        ("status", .str (statusToString t.status)),
        ("tags", .arr (t.tags.map Json.str)),
        ("title", .str t.title)]

/-- Static `Task::from_json`: the six members are read in the order title,
description, priority, status, deadline, tags; the first failing access or
conversion raises. -/
def from_json (j : Json) : Except JsonError Task := do
  let title ← (← j.at_key "title").get_string
  let description ← (← j.at_key "description").get_string
  let priority ← (← j.at_key "priority").get_string
  let status ← (← j.at_key "status").get_string
  let deadline ← (← j.at_key "deadline").get_string
  let tags ← (← j.at_key "tags").get_string_vector
  return { title := title, description := description,
           priority := stringToPriority priority, status := stringToStatus status,
           deadline := deadline, tags := tags }

end Task

/-- What opening and reading a file yields: the file cannot be opened, its
text is not a JSON document, or it holds a document. -/
inductive FileContent where
  | missing
  | malformed
  | document (j : Json)

/-- The files on disk, by file name. -/
abbrev FileSystem := String → FileContent

/-- Writing a whole file (`std::ofstream` truncates, then the text is written). -/
def FileSystem.write (fs : FileSystem) (path : String) (c : FileContent) : FileSystem :=
  fun p => if p = path then c else fs p

namespace User

/-- The file of a user: `name + "_tasks.json"`. -/
def file_name (u : User) : String := u.name ++ "_tasks.json"

/-- The loop `json j; for (t : tasks) j.push_back(t.to_json());` of
`save_to_file`, from the document built so far. -/
def save_document : Json → List Task → Except JsonError Json
  | j, [] => .ok j
  | j, t :: ts =>
    match j.push_back t.to_json with
    | .ok j1 => save_document j1 ts
    | .error e => .error e

/-- Method `save_to_file`: the document is built, then the user's file is
overwritten with it. Returns the files afterwards and the exception raised, if
any (the file is opened only after the document is complete). -/
def save_to_file (u : User) (fs : FileSystem) : FileSystem × Option JsonError :=
  match save_document Json.null u.tasks with
  | .ok j => (fs.write u.file_name (.document j), none)
  | .error e => (fs, some e)

/-- The loop `for (item : j) tasks.push_back(Task::from_json(item));` of
`load_from_file`: returns the store as the loop leaves it and the exception
that ended it, if any. -/
def load_items (u : User) : List Json → User × Option JsonError
  | [] => (u, none)
  | item :: rest =>
    match Task.from_json item with
    | .ok t => load_items { u with tasks := u.tasks ++ [t] } rest
    | .error e => (u, some e)

/-- Method `load_from_file`: nothing happens when the file cannot be opened;
a file that is not JSON raises before the store is touched; otherwise the
tasks are cleared and the records are appended one by one. Returns the store
as the call leaves it and the exception raised, if any. -/
def load_from_file (u : User) (fs : FileSystem) : User × Option JsonError :=
  match fs u.file_name with
  | .missing => (u, none)
  | .malformed => (u, some .parse_error)
  | .document j => load_items { u with tasks := [] } j.items

end User

/-! ## The store of `include/User.h` and `src/User.cpp`

The library target built for the unit tests has its own, smaller `User`: the
same task vector, no undo history. -/

namespace Lib

/-- The `User` class of `include/User.h`. -/
structure User where
  username : String
  tasks : List Task
  deriving DecidableEq, Repr

namespace User

/-- Constructor `User::User(const std::string& name)`. -/
def mk_named (name : String) : User := { username := name, tasks := [] }

/-- Method `User::add_task` of `src/User.cpp`: `tasks.push_back(task);`. -/
def add_task (u : User) (task : Task) : User :=
  { u with tasks := u.tasks ++ [task] }

/-- Method `User::delete_task` of `src/User.cpp`: guarded `tasks.erase`. -/
def delete_task (u : User) (index : Nat) : User :=
  if index < u.tasks.length then { u with tasks := u.tasks.eraseIdx index } else u

/-- Method `User::search_tasks` of `src/User.cpp`. -/
def search_tasks (u : User) (keyword : String) : List Task :=
  u.tasks.foldl
    (fun results task =>
      if string_find task.title keyword ≠ none ∨ string_find task.description keyword ≠ none then
        results ++ [task]
      else results)
    []

/-- Method `User::get_tasks` of `src/User.cpp`. -/
def get_tasks (u : User) : List Task := u.tasks

end User

end Lib

/-! ## Deadlines and the clock (`main.cpp` 321-347)

The classifiers use three library services: `std::get_time` to parse the
deadline text, `std::mktime` to turn the broken-down time into an instant, and
`std::time` for the current instant. The first two are taken as parameters
(`TimeLib`), the current instant as the argument `now`, in whole seconds. -/

/-- The fields of `std::tm` that `std::get_time` fills for the format
`%Y-%m-%d %H:%M`, on a zero-initialised `std::tm`. -/
structure Tm where
  tm_sec : Int
  tm_min : Int
  tm_hour : Int
  tm_mday : Int
  tm_mon : Int
  tm_year : Int
  deriving DecidableEq, Repr

/-- The time services of the standard library. `get_time text` is the effect
of `ss >> std::get_time(&tm, "%Y-%m-%d %H:%M")` on a stream over `text` and a
zeroed `tm`: `none` when `ss.fail()`, otherwise the `tm` filled in. `mktime`
gives the instant of a broken-down time, in seconds. -/
structure TimeLib where
  get_time : String → Option Tm
  mktime : Tm → Int

/-- Function `std::difftime(end, beginning)`: the difference in seconds. The
`double` result is the exact integer difference for every pair of instants
whose difference is compared with 0 and 86400 below. -/
def difftime (time_end time_beginning : Int) : Int := time_end - time_beginning

/-- Function `isOverdue`, with the value of `std::time(nullptr)` as `now`. -/
def isOverdue (lib : TimeLib) (now : Int) (deadline : String) : Bool :=
  match lib.get_time deadline with
  | none => false
  | some tm =>
    let deadline_time := lib.mktime tm
    decide (difftime deadline_time now < 0)

/-- Function `isUrgent`, with the value of `std::time(nullptr)` as `now`. -/
def isUrgent (lib : TimeLib) (now : Int) (deadline : String) : Bool :=
  match lib.get_time deadline with
  | none => false
  | some tm =>
    let deadline_time := lib.mktime tm
    let diff := difftime deadline_time now
    decide (diff > 0) && decide (diff ≤ 86400)

/-! ### A concrete time library

A model of the library services for the format `%Y-%m-%d %H:%M`, used to
evaluate the classifiers and the calendar on concrete deadline texts. The
general statements hold for every `TimeLib`. -/

/-- Value of a decimal digit character, if it is one. -/
def digit_value (c : Char) : Option Nat :=
  if c.isDigit then some (c.toNat - 48) else none

/-- Reads further digits into `acc`, at most `more` of them. -/
def read_digits : Nat → Nat → List Char → Nat × List Char
  | 0, acc, cs => (acc, cs)
  | _ + 1, acc, [] => (acc, [])
  | more + 1, acc, c :: cs =>
    match digit_value c with
    | some v => read_digits more (acc * 10 + v) cs
    | none => (acc, c :: cs)

/-- Reads a decimal number of one to `width` digits (leading zeros allowed,
not required) whose value lies in `lo..hi`; returns it with the unread rest. -/
def read_number (width lo hi : Nat) : List Char → Option (Nat × List Char)
  | [] => none
  | c :: cs =>
    match digit_value c with
    | none => none
    | some v =>
      let r := read_digits (width - 1) v cs
      if lo ≤ r.1 ∧ r.1 ≤ hi then some r else none

/-- Matches one literal character of the format. -/
def expect_char (c : Char) : List Char → Option (List Char)
  | [] => none
  | x :: xs => if x = c then some xs else none

/-- A space in the format skips any run of white space in the input. -/
def skip_spaces : List Char → List Char
  | [] => []
  | c :: cs => if c.isWhitespace then skip_spaces cs else c :: cs

/-- Model of `std::get_time(&tm, "%Y-%m-%d %H:%M")`: year of up to four
digits, month 1-12, day 1-31, hour 0-23, minute 0-59, separated by the literal
characters of the format; text after the minutes is left unread. -/
def get_time_model (text : String) : Option Tm := do
  let (year, r1) ← read_number 4 0 9999 text.data
  let r2 ← expect_char '-' r1
  let (month, r3) ← read_number 2 1 12 r2
  let r4 ← expect_char '-' r3
  let (day, r5) ← read_number 2 1 31 r4
  let (hour, r6) ← read_number 2 0 23 (skip_spaces r5)
  let r7 ← expect_char ':' r6
  let (minute, _) ← read_number 2 0 59 r7
  some { tm_sec := 0, tm_min := minute, tm_hour := hour, tm_mday := day,
         tm_mon := (month : Int) - 1, tm_year := (year : Int) - 1900 }

/-- Days from 1970-01-01 to the given day of the proleptic Gregorian calendar
(`month` in 1..12; `day` may run past the end of the month). -/
def days_from_civil (year month day : Int) : Int :=
  let y := if month ≤ 2 then year - 1 else year
  let era := y / 400
  let yoe := y - era * 400
  let mp := (month + 9) % 12
  let doy := (153 * mp + 2) / 5 + day - 1
  let doe := yoe * 365 + yoe / 4 - yoe / 100 + doy
  era * 146097 + doe - 719468

/-- Model of `std::mktime` in a time zone without offset: the fields are
normalised by carrying and the instant is counted in seconds from the epoch. -/
def mktime_model (tm : Tm) : Int :=
  let year := tm.tm_year + 1900 + tm.tm_mon / 12
  let month := tm.tm_mon % 12 + 1
  days_from_civil year month tm.tm_mday * 86400
    + tm.tm_hour * 3600 + tm.tm_min * 60 + tm.tm_sec

/-- The concrete time library. -/
def stdTime : TimeLib := { get_time := get_time_model, mktime := mktime_model }

/-! ## The calendar view (`main.cpp` 731-848) -/

/-- Statement `m[key] = f(m[key])` on a `std::map<int, V>` kept as its
key-ordered list of entries: `operator[]` inserts a value-initialised entry
when the key is absent (`f none` is `f` applied to that fresh value). -/
def map_update {β : Type} : List (Int × β) → Int → (Option β → β) → List (Int × β)
  | [], key, f => [(key, f none)]
  | (k, v) :: rest, key, f =>
    if key = k then (k, f (some v)) :: rest
    else if key < k then (key, f none) :: (k, v) :: rest
    else (k, v) :: map_update rest key f

/-- Lookup `m.find(key)` in a `std::map<int, V>`: the stored value, if any. -/
def map_find {β : Type} : List (Int × β) → Int → Option β
  | [], _ => none
  | (k, v) :: rest, key => if key = k then some v else map_find rest key

/-- The local `calendarData`: year, then zero-based month, then day of month,
then the tasks of that day. -/
abbrev CalendarData := List (Int × List (Int × List (Int × List Task)))

/-- Statement `calendarData[year][month][day].push_back(task)`. -/
def calendar_push (data : CalendarData) (year month day : Int) (task : Task) : CalendarData :=
  map_update data year (fun months =>
    map_update (months.getD []) month (fun days =>
      map_update (days.getD []) day (fun tasks => tasks.getD [] ++ [task])))

/-- The grouping loop of `openCalendarWindow`: every task whose deadline
parses is pushed under its year, month and day; the others are skipped. -/
def calendar_group (lib : TimeLib) (tasks : List Task) : CalendarData :=
  tasks.foldl
    (fun data task =>
      match lib.get_time task.deadline with
      | none => data
      | some tm => calendar_push data (tm.tm_year + 1900) tm.tm_mon tm.tm_mday task)
    []

/-- The group stored for a year, month and day, if there is one. -/
def calendar_entry (data : CalendarData) (year month day : Int) : Option (List Task) :=
  (map_find data year).bind (fun months =>
    (map_find months month).bind (fun days => map_find days day))

/-- The expression `maxDays` of `openCalendarWindow` for the displayed year
and zero-based month (`%` is the remainder of C++ integer division). -/
def maxDays (year month : Int) : Int :=
  if month = 1 then
    if year.tmod 4 = 0 ∧ (year.tmod 100 ≠ 0 ∨ year.tmod 400 = 0) then 29 else 28
  else if month = 3 ∨ month = 5 ∨ month = 8 ∨ month = 10 then 30
  else 31

/-- Insertion of `x` into a list ordered by `lt`, before the first element
that does not precede it. -/
def sort_insert {α : Type} (lt : α → α → Bool) (x : α) : List α → List α
  | [] => [x]
  | y :: ys => if lt y x then y :: sort_insert lt x ys else x :: y :: ys

/-- Model of `std::sort(first, last, comp)`: the elements in an order
compatible with `comp`. The library leaves the relative order of equivalent
elements open; the model keeps it. -/
def std_sort {α : Type} (lt : α → α → Bool) : List α → List α
  | [] => []
  | x :: xs => sort_insert lt x (std_sort lt xs)

/-- Order `operator<` of `std::pair<int, int>`: by first component, then by
second. -/
def pair_lt (a b : Int × Int) : Bool :=
  decide (a.1 < b.1 ∨ (a.1 = b.1 ∧ a.2 < b.2))

/-- The inner loop `for ([month, _] : months) availableMonths.emplace_back(year, month)`. -/
def collect_months (year : Int) (months : List (Int × List (Int × List Task)))
    (acc : List (Int × Int)) : List (Int × Int) :=
  months.foldl (fun available entry => available ++ [(year, entry.1)]) acc

/-- The local `availableMonths`: every (year, month) of `calendarData`,
collected in map order and then sorted. -/
def available_months (data : CalendarData) : List (Int × Int) :=
  std_sort pair_lt
    (data.foldl (fun available entry => collect_months entry.1 entry.2 available) [])

/-- The keys the calendar window reacts to, and any other key. -/
inductive Key where
  | Left
  | Right
  | Other
  deriving DecidableEq, Repr

/-- The effect of one `KeyPressed` event on `currentIndex`:
`std::max(0, currentIndex - 1)` for Left and
`std::min((int)availableMonths.size() - 1, currentIndex + 1)` for Right. -/
def key_pressed (availableMonths : List (Int × Int)) (currentIndex : Int) : Key → Int
  | .Left => max 0 (currentIndex - 1)
  | .Right => min ((availableMonths.length : Int) - 1) (currentIndex + 1)
  | .Other => currentIndex

/-- The lookup `availableMonths[currentIndex]` of a frame: `none` when the
index is outside the vector, which the unchecked `operator[]` does not
detect. -/
def displayed_month (availableMonths : List (Int × Int)) (currentIndex : Int) :
    Option (Int × Int) :=
  if 0 ≤ currentIndex then availableMonths[currentIndex.toNat]? else none

/-- The frames of the calendar window's loop from a given `currentIndex`: each
frame first handles its pending key events, then looks up the displayed year
and month. Returns the lookup of every frame. -/
def calendar_frames (availableMonths : List (Int × Int)) :
    Int → List (List Key) → List (Option (Int × Int))
  | _, [] => []
  | currentIndex, events :: rest =>
    let index1 := events.foldl (key_pressed availableMonths) currentIndex
    displayed_month availableMonths index1 :: calendar_frames availableMonths index1 rest

/-- Method `GUIApp::openCalendarWindow` as far as the month lookup goes: the
tasks are grouped, the available months collected, `currentIndex` starts at 0,
and the window runs the given frames (at least one frame runs before the
window can be closed). -/
def openCalendarWindow (lib : TimeLib) (tasks : List Task) (frames : List (List Key)) :
    List (Option (Int × Int)) :=
  calendar_frames (available_months (calendar_group lib tasks)) 0 frames

/-! ## The task list view (`main.cpp` 521-549, 640-700) -/

/-- Lexicographic comparison of two character sequences, a proper initial
segment coming first. -/
def chars_lt : List Char → List Char → Bool
  | _, [] => false
  | [], _ :: _ => true
  | a :: as, b :: bs =>
    if a.toNat < b.toNat then true
    else if b.toNat < a.toNat then false
    else chars_lt as bs

/-- Order `operator<` of `std::string`. -/
def string_lt (a b : String) : Bool := chars_lt a.data b.data

/-- Method `GUIApp::drawTaskList`: the tasks drawn, one per displayed row, top
row first. A copy of the store's tasks is sorted by deadline text when the
date order is `asc` or `desc`, and a task is skipped when a tag filter is set
and `std::find` does not find it among the task's tags. `taskRects` and
`deleteRects` receive one rectangle per drawn row, in the same order. -/
def drawTaskList (tasks : List Task) (tagFilter dateOrder : String) : List Task :=
  let sorted :=
    if dateOrder = "asc" then
      std_sort (fun a b => string_lt a.deadline b.deadline) tasks
    else if dateOrder = "desc" then
      std_sort (fun a b => string_lt b.deadline a.deadline) tasks
    else tasks
  sorted.foldl
    (fun rows t =>
      if tagFilter ≠ "" ∧ std_find t.tags tagFilter = t.tags.length then rows
      else rows ++ [t])
    []

/-- The click on the delete button of displayed row `i` in `GUIApp::run`:
`user.delete_task(i)`. -/
def click_delete (u : User) (i : Nat) : User := u.delete_task i

/-- The click on displayed row `i` in `GUIApp::run`: `loadTaskToForm(i)` puts
the store's task at index `i` in the form (nothing when `i` is out of range),
and `editingIndex` becomes `i`. Returns the task loaded. -/
def click_row (u : User) (i : Nat) : Option Task :=
  if i ≥ u.get_tasks.length then none else u.get_tasks[i]?

/-- The later click on Save with `editingIndex = i`: `updateTask(i)` edits the
store at index `i` with the task made from the form. -/
def click_save_edit (u : User) (i : Nat) (fromForm : Task) : User := u.edit_task i fromForm

/-! ## Call sequences on the store -/

/-- One mutating-API call on the store, with its arguments. -/
inductive Call where
  | add (task : Task)
  | delete (index : Nat)
  | edit (index : Nat) (updated_task : Task)
  deriving DecidableEq, Repr

/-- Performing one call. -/
def Call.run (u : User) : Call → User
  | .add t => u.add_task t
  | .delete i => u.delete_task i
  | .edit i t => u.edit_task i t

/-- Whether a call changes the collection when issued in state `u`: every add,
and every delete or edit whose index is in range at that moment. -/
def Call.mutates (u : User) : Call → Bool
  | .add _ => true
  | .delete i => decide (i < u.tasks.length)
  | .edit i _ => decide (i < u.tasks.length)

/-- Performing a sequence of calls, first call first. -/
def runCalls (u : User) : List Call → User
  | [] => u
  | c :: cs => runCalls (c.run u) cs

/-- Number of calls of the sequence that mutate the collection, each judged in
the state it is issued in. -/
def mutationCount (u : User) : List Call → Nat
  | [] => 0
  | c :: cs => (if c.mutates u then 1 else 0) + mutationCount (c.run u) cs

/-- The task list as it stands right after each mutating call, oldest first. -/
def mutationTrace (u : User) : List Call → List (List Task)
  | [] => []
  | c :: cs =>
    if c.mutates u then (c.run u).tasks :: mutationTrace (c.run u) cs
    else mutationTrace (c.run u) cs

/-- Calling `undo()` `n` times. -/
def undoTimes : Nat → User → User
  | 0, u => u
  | n + 1, u => undoTimes n u.undo

/-! ## Specification-side predicates -/

/-- Specification of search: a task matches keyword `k` when `k` occurs as a
contiguous run of characters in its title or in its description. -/
def matchesKeyword (k : String) (t : Task) : Prop :=
  k.data <:+: t.title.data ∨ k.data <:+: t.description.data

instance (k : String) : DecidablePred (matchesKeyword k) :=
  fun t => inferInstanceAs
    (Decidable (k.data <:+: t.title.data ∨ k.data <:+: t.description.data))

/-- Specification of the tag filter: a task matches tag `x` when one of its
tags is equal to `x`. -/
def hasTag (x : String) (t : Task) : Prop := x ∈ t.tags

instance (x : String) : DecidablePred (hasTag x) :=
  fun t => inferInstanceAs (Decidable (x ∈ t.tags))

/-- Specification of the histogram: how many tasks of the list have priority `p`. -/
def countPriority (p : Priority) (tasks : List Task) : Nat :=
  tasks.countP (fun t => decide (t.priority = p))

/-- Representation invariant of the map: the entries are in strictly
increasing key order. -/
def StatsSorted (m : List (Priority × Int)) : Prop :=
  m.Pairwise (fun a b => a.1.toNat < b.1.toNat)

/-- Specification of the calendar grouping: the deadline of the task parses
to the given year, zero-based month and day of month. -/
def deadlineOn (lib : TimeLib) (year month day : Int) (task : Task) : Bool :=
  match lib.get_time task.deadline with
  | none => false
  | some tm => decide (tm.tm_year + 1900 = year ∧ tm.tm_mon = month ∧ tm.tm_mday = day)

/-- Representation invariant of a `std::map<int, V>`: the entries are in
strictly increasing key order. -/
def MapSorted {β : Type} (m : List (Int × β)) : Prop :=
  m.Pairwise (fun a b => a.1 < b.1)

/-- Representation invariant of `calendarData`: the map of years, every map
of months and every map of days is in key order. -/
def CalendarSorted (data : CalendarData) : Prop :=
  MapSorted data
  ∧ ∀ year months, map_find data year = some months →
      MapSorted months
      ∧ ∀ month days, map_find months month = some days → MapSorted days

/-- Specification of the leap-year rule: divisible by 4, and not by 100
unless by 400. -/
def isLeapYear (year : Int) : Prop :=
  4 ∣ year ∧ (¬ 100 ∣ year ∨ 400 ∣ year)

instance (year : Int) : Decidable (isLeapYear year) :=
  inferInstanceAs (Decidable (4 ∣ year ∧ (¬ 100 ∣ year ∨ 400 ∣ year)))

/-- Specification of the month lengths of the Gregorian calendar, by
zero-based month index 0..11. -/
def gregorianMonthLength (year : Int) (month : Nat) : Int :=
  match month with
  | 0 => 31
  | 1 => if isLeapYear year then 29 else 28
  | 2 => 31
  | 3 => 30
  | 4 => 31
  | 5 => 30
  | 6 => 31
  | 7 => 31
  | 8 => 30
  | 9 => 31
  | 10 => 30
  | _ => 31

/-! ## Concrete stores -/

/-- A sample task, used to instantiate the statements at concrete stores. -/
def sampleTask : Task :=
  { title := "Buy milk", description := "From store", priority := Priority.High,
    status := Status.Active, deadline := "2030-01-01 12:00", tags := ["home", "shop"] }

/-- A second sample task. -/
def sampleTask2 : Task :=
  { title := "Do homework", description := "Math", priority := Priority.Low,
    status := Status.Done, deadline := "2030-01-02 12:00", tags := [] }

/-- A third sample task. -/
def sampleTask3 : Task :=
  { title := "Call mom", description := "Evening", priority := Priority.Low,
    status := Status.Active, deadline := "not-a-date", tags := ["home", "home"] }

/-- A store holding the three sample tasks, with an empty history. -/
def sampleUser : User :=
  { name := "test_user", tasks := [sampleTask, sampleTask2, sampleTask3], history := [] }

/-- The six member names that `Task::from_json` reads from a record. -/
def requiredFields : List String :=
  ["title", "description", "priority", "status", "deadline", "tags"]

/-- Specification of a defective record: a persisted record (a JSON object)
that lacks a member for one of the six required names. -/
def lacksField : Json → Bool
  | .obj members => requiredFields.any (fun key => (Json.lookup key members).isNone)
  | _ => false

/-- A record with a title and nothing else: it lacks five required fields. -/
def titleOnlyRecord : Json := .obj [("title", .str "Broken")]

/-- Files in which the file of `test_user` holds the second sample task
followed by a record that lacks required fields. -/
def brokenFiles : FileSystem :=
  fun _ => .document (.arr [sampleTask2.to_json, titleOnlyRecord])

/-- A task due on 15 February 2030. -/
def taskFeb15 : Task :=
  { title := "Pay rent", description := "", priority := Priority.High,
    status := Status.Active, deadline := "2030-02-15 10:00", tags := [] }

/-- A task due on 20 February 2030. -/
def taskFeb20 : Task :=
  { title := "Renew pass", description := "", priority := Priority.Medium,
    status := Status.Active, deadline := "2030-02-20 10:00", tags := ["city"] }

/-- Two dated tasks and one whose deadline is not a date. -/
def calendarTasks : List Task := [taskFeb15, sampleTask3, taskFeb20]

end TaskManager

namespace TaskManager

/-! ## Helper lemmas: single calls and undo -/

theorem add_task_undo (u : User) (t : Task) : (u.add_task t).undo = u := by
  cases u
  rfl

theorem delete_task_undo (u : User) (i : Nat) (h : i < u.tasks.length) :
    (u.delete_task i).undo = u := by
  cases u
  simp only [User.delete_task, User.save_state, User.undo] at h ⊢
  rw [if_pos h]

theorem edit_task_undo (u : User) (i : Nat) (t : Task) (h : i < u.tasks.length) :
    (u.edit_task i t).undo = u := by
  cases u
  simp only [User.edit_task, User.save_state, User.undo] at h ⊢
  rw [if_pos h]

theorem delete_task_out_of_range (u : User) (i : Nat) (h : u.tasks.length ≤ i) :
    u.delete_task i = u := by
  unfold User.delete_task
  rw [if_neg (Nat.not_lt.mpr h)]

theorem edit_task_out_of_range (u : User) (i : Nat) (t : Task) (h : u.tasks.length ≤ i) :
    u.edit_task i t = u := by
  unfold User.edit_task
  rw [if_neg (Nat.not_lt.mpr h)]

theorem run_of_not_mutates (u : User) (c : Call) (h : c.mutates u = false) : c.run u = u := by
  cases c with
  | add t => simp [Call.mutates] at h
  | delete i =>
    simp only [Call.mutates, decide_eq_false_iff_not, Nat.not_lt] at h
    exact delete_task_out_of_range u i h
  | edit i t =>
    simp only [Call.mutates, decide_eq_false_iff_not, Nat.not_lt] at h
    exact edit_task_out_of_range u i t h

theorem run_undo_of_mutates (u : User) (c : Call) (h : c.mutates u = true) :
    (c.run u).undo = u := by
  cases c with
  | add t => exact add_task_undo u t
  | delete i =>
    simp only [Call.mutates, decide_eq_true_eq] at h
    exact delete_task_undo u i h
  | edit i t =>
    simp only [Call.mutates, decide_eq_true_eq] at h
    exact edit_task_undo u i t h

theorem run_history_of_mutates (u : User) (c : Call) (h : c.mutates u = true) :
    (c.run u).history = u.tasks :: u.history := by
  cases c with
  | add t => rfl
  | delete i =>
    simp only [Call.mutates, decide_eq_true_eq] at h
    simp only [Call.run, User.delete_task, User.save_state]
    rw [if_pos h]
  | edit i t =>
    simp only [Call.mutates, decide_eq_true_eq] at h
    simp only [Call.run, User.edit_task, User.save_state]
    rw [if_pos h]

theorem undoTimes_succ_last (n : Nat) (u : User) :
    undoTimes (n + 1) u = (undoTimes n u).undo := by
  induction n generalizing u with
  | zero => rfl
  | succ n ih =>
    show undoTimes (n + 1) u.undo = (undoTimes (n + 1) u).undo
    rw [ih u.undo]
    rfl

theorem mutationTrace_length (u : User) (cs : List Call) :
    (mutationTrace u cs).length = mutationCount u cs := by
  induction cs generalizing u with
  | nil => rfl
  | cons c cs ih =>
    unfold mutationTrace mutationCount
    cases hm : c.mutates u
    · simp [ih]
    · simp [ih, Nat.add_comm]

/-! ## The store: mutations and undo -/

/-- C1. For every store `s` and every sequence `cs` of add/delete/edit calls
with `k` mutating calls: the history is the old history with exactly `k`
snapshots pushed on it (the task lists that preceded each mutating call, newest
on top), `k` calls of undo give back `s` itself (tasks and history), and the
task lists seen after 0, 1, ..., `k` undos are the task lists that stood after
each mutating call, read backwards down to `s.tasks`. -/
theorem undo_reverts_calls (s : User) (cs : List Call) :
    (runCalls s cs).history.length = s.history.length + mutationCount s cs
    ∧ (mutationTrace s cs).length = mutationCount s cs
    ∧ (runCalls s cs).history
        = (s.tasks :: mutationTrace s cs).dropLast.reverse ++ s.history
    ∧ undoTimes (mutationCount s cs) (runCalls s cs) = s
    ∧ (List.range (mutationCount s cs + 1)).map
          (fun j => (undoTimes j (runCalls s cs)).tasks)
        = (s.tasks :: mutationTrace s cs).reverse := by
  refine ⟨?_, mutationTrace_length s cs, ?_⟩
  · induction cs generalizing s with
    | nil => rfl
    | cons c cs ih =>
      show (runCalls (c.run s) cs).history.length = _
      rw [ih (c.run s)]
      cases hm : c.mutates s with
      | false => simp [mutationCount, hm, run_of_not_mutates s c hm]
      | true =>
        rw [run_history_of_mutates s c hm]
        simp only [mutationCount, hm, if_true, List.length_cons]
        omega
  · induction cs generalizing s with
    | nil =>
      refine ⟨?_, rfl, rfl⟩
      simp [runCalls, mutationTrace]
    | cons c cs ih =>
      obtain ⟨ih2, ih3, ih4⟩ := ih (c.run s)
      cases hm : c.mutates s with
      | false =>
        have hrun : c.run s = s := run_of_not_mutates s c hm
        rw [hrun] at ih2 ih3 ih4
        have hk : mutationCount s (c :: cs) = mutationCount s cs := by
          simp [mutationCount, hm, hrun]
        have ht : mutationTrace s (c :: cs) = mutationTrace s cs := by
          simp [mutationTrace, hm, hrun]
        have hr : runCalls s (c :: cs) = runCalls s cs := by
          simp [runCalls, hrun]
        rw [hk, ht, hr]
        exact ⟨ih2, ih3, ih4⟩
      | true =>
        have hk : mutationCount s (c :: cs) = mutationCount (c.run s) cs + 1 := by
          simp [mutationCount, hm, Nat.add_comm]
        have ht : mutationTrace s (c :: cs)
            = (c.run s).tasks :: mutationTrace (c.run s) cs := by
          simp [mutationTrace, hm]
        have hr : runCalls s (c :: cs) = runCalls (c.run s) cs := rfl
        have hh := run_history_of_mutates s c hm
        rw [hk, ht, hr]
        refine ⟨?_, ?_, ?_⟩
        · rw [ih2, hh]
          simp [List.dropLast]
        · rw [undoTimes_succ_last, ih3]
          exact run_undo_of_mutates s c hm
        · rw [List.range_succ, List.map_append, ih4]
          simp only [List.map_cons, List.map_nil, List.reverse_cons, List.append_assoc]
          rw [undoTimes_succ_last, ih3, run_undo_of_mutates s c hm]

/-- C2. Calling add with task `t` on store `s` leaves the tasks equal to the
old tasks followed by `t` (one longer, `t` last, every earlier position
unchanged) and the history equal to the old history with the old task list
pushed on top; the store of `src/User.cpp` appends in the same way. -/
theorem add_task_appends (s : User) (t : Task) (v : Lib.User) :
    (s.add_task t).tasks = s.tasks ++ [t]
    ∧ (s.add_task t).tasks.length = s.tasks.length + 1
    ∧ (s.add_task t).tasks.getLast? = some t
    ∧ (∀ i, i < s.tasks.length → (s.add_task t).tasks[i]? = s.tasks[i]?)
    ∧ (s.add_task t).history = s.tasks :: s.history
    ∧ (s.add_task t).name = s.name
    ∧ (v.add_task t).tasks = v.tasks ++ [t]
    ∧ (v.add_task t).tasks.getLast? = some t := by
  refine ⟨rfl, ?_, ?_, ?_, rfl, rfl, rfl, ?_⟩
  · simp [User.add_task, User.save_state]
  · simp [User.add_task, User.save_state]
  · intro i hi
    simp only [User.add_task, User.save_state]
    exact List.getElem?_append_left hi
  · simp [Lib.User.add_task]

/-- C3. The three silent no-ops: delete with an index at or beyond the length,
edit with an index at or beyond the length, and undo on an empty history each
return the store exactly as it was (same tasks, same history, nothing pushed or
popped); the store of `src/User.cpp` ignores an out-of-range delete as well. -/
theorem noop_calls_keep_store (s : User) (v : Lib.User) :
    (∀ i, s.tasks.length ≤ i → s.delete_task i = s)
    ∧ (∀ i u, s.tasks.length ≤ i → s.edit_task i u = s)
    ∧ (s.history = [] → s.undo = s)
    ∧ (∀ i, v.tasks.length ≤ i → v.delete_task i = v) := by
  refine ⟨fun i h => delete_task_out_of_range s i h,
    fun i u h => edit_task_out_of_range s i u h, ?_, ?_⟩
  · intro h
    unfold User.undo
    rw [h]
  · intro i h
    unfold Lib.User.delete_task
    rw [if_neg (Nat.not_lt.mpr h)]

/-- C3 at a concrete store: on three tasks and an empty history, delete at
index 3, edit at index 999 and undo change nothing, and neither does delete at
index 999 on the empty store of `src/User.cpp`. -/
theorem noop_calls_keep_store_witness :
    sampleUser.tasks.length ≤ 3
    ∧ sampleUser.history = []
    ∧ sampleUser.delete_task 3 = sampleUser
    ∧ sampleUser.edit_task 999 sampleTask2 = sampleUser
    ∧ sampleUser.undo = sampleUser
    ∧ (Lib.User.mk_named "test_user").delete_task 999 = Lib.User.mk_named "test_user" :=
  ⟨by decide, rfl,
   (noop_calls_keep_store sampleUser (Lib.User.mk_named "test_user")).1 3 (by decide),
   (noop_calls_keep_store sampleUser (Lib.User.mk_named "test_user")).2.1 999 sampleTask2
     (by decide),
   (noop_calls_keep_store sampleUser (Lib.User.mk_named "test_user")).2.2.1 rfl,
   (noop_calls_keep_store sampleUser (Lib.User.mk_named "test_user")).2.2.2 999 (by decide)⟩

/-- C4. Delete at an index `i` below the length removes exactly the element at
position `i`: the task list is one shorter, every position below `i` holds what
it held, and every position `j` from `i` on holds what position `j + 1` held
(so the element formerly at `j > i` is now at `j - 1`). The old task list is
pushed on the history, and the store of `src/User.cpp` removes the same
element. -/
theorem delete_task_removes (s : User) (i : Nat) (h : i < s.tasks.length) (v : Lib.User)
    (hv : i < v.tasks.length) :
    (s.delete_task i).tasks.length + 1 = s.tasks.length
    ∧ (∀ j, j < i → (s.delete_task i).tasks[j]? = s.tasks[j]?)
    ∧ (∀ j, i < j → (s.delete_task i).tasks[j - 1]? = s.tasks[j]?)
    ∧ (s.delete_task i).tasks = s.tasks.take i ++ s.tasks.drop (i + 1)
    ∧ (s.delete_task i).history = s.tasks :: s.history
    ∧ (v.delete_task i).tasks = v.tasks.take i ++ v.tasks.drop (i + 1) := by
  have ht : (s.delete_task i).tasks = s.tasks.eraseIdx i := by
    simp only [User.delete_task, User.save_state]
    rw [if_pos h]
  have hh : (s.delete_task i).history = s.tasks :: s.history := by
    simp only [User.delete_task, User.save_state]
    rw [if_pos h]
  have hl : (v.delete_task i).tasks = v.tasks.eraseIdx i := by
    simp only [Lib.User.delete_task]
    rw [if_pos hv]
  refine ⟨?_, ?_, ?_, ?_, hh, ?_⟩
  · rw [ht, List.length_eraseIdx_of_lt h]
    omega
  · intro j hj
    rw [ht]
    exact List.getElem?_eraseIdx_of_lt s.tasks i j hj
  · intro j hj
    rw [ht, List.getElem?_eraseIdx_of_ge s.tasks i (j - 1) (by omega)]
    congr 1
    omega
  · rw [ht, List.eraseIdx_eq_take_drop_succ]
  · rw [hl, List.eraseIdx_eq_take_drop_succ]

/-- C4 at a concrete store: deleting index 1 of the three sample tasks. -/
theorem delete_task_removes_witness :
    1 < sampleUser.tasks.length
    ∧ (sampleUser.delete_task 1).tasks = [sampleTask, sampleTask3]
    ∧ (sampleUser.delete_task 1).tasks.length + 1 = sampleUser.tasks.length :=
  ⟨by decide,
   (delete_task_removes sampleUser 1 (by decide)
      { username := "test_user", tasks := sampleUser.tasks } (by decide)).2.2.2.1,
   (delete_task_removes sampleUser 1 (by decide)
      { username := "test_user", tasks := sampleUser.tasks } (by decide)).1⟩

/-- C5. Edit at an index `i` below the length with task `u` keeps the length
of the task list, puts `u` at position `i` and leaves every other position
holding the task it held; the old task list is pushed on the history. -/
theorem edit_task_replaces (s : User) (i : Nat) (u : Task) (h : i < s.tasks.length) :
    (s.edit_task i u).tasks.length = s.tasks.length
    ∧ (s.edit_task i u).tasks[i]? = some u
    ∧ (∀ j, j ≠ i → (s.edit_task i u).tasks[j]? = s.tasks[j]?)
    ∧ (s.edit_task i u).history = s.tasks :: s.history := by
  have ht : (s.edit_task i u).tasks = s.tasks.set i u := by
    simp only [User.edit_task, User.save_state]
    rw [if_pos h]
  have hh : (s.edit_task i u).history = s.tasks :: s.history := by
    simp only [User.edit_task, User.save_state]
    rw [if_pos h]
  refine ⟨?_, ?_, ?_, hh⟩
  · rw [ht, List.length_set]
  · rw [ht, List.getElem?_set]
    simp [h]
  · intro j hj
    rw [ht, List.getElem?_set]
    simp [Ne.symm hj]

/-- C5 at a concrete store: editing index 1 of the three sample tasks. -/
theorem edit_task_replaces_witness :
    1 < sampleUser.tasks.length
    ∧ (sampleUser.edit_task 1 sampleTask3).tasks.length = sampleUser.tasks.length
    ∧ (sampleUser.edit_task 1 sampleTask3).tasks[1]? = some sampleTask3 :=
  ⟨by decide,
   (edit_task_replaces sampleUser 1 sampleTask3 (by decide)).1,
   (edit_task_replaces sampleUser 1 sampleTask3 (by decide)).2.1⟩

/-! ## Queries -/

theorem foldl_push_eq_filter {α : Type} (p : α → Prop) [DecidablePred p] (l : List α)
    (acc : List α) :
    l.foldl (fun result t => if p t then result ++ [t] else result) acc
      = acc ++ l.filter (fun t => decide (p t)) := by
  induction l generalizing acc with
  | nil => simp
  | cons a l ih =>
    rw [List.foldl_cons, ih]
    by_cases ha : p a
    · simp [ha]
    · simp [ha]

theorem string_find_from_ne_none_iff (s k : List Char) (pos : Nat) :
    string_find_from s k pos ≠ none ↔ k <:+: s := by
  induction s generalizing pos with
  | nil =>
    unfold string_find_from
    by_cases hk : k.isPrefixOf [] = true
    · rw [if_pos hk]
      have hp : k <+: [] := List.isPrefixOf_iff_prefix.mp hk
      exact ⟨fun _ => hp.isInfix, fun _ => by simp⟩
    · rw [if_neg hk]
      refine ⟨fun h => absurd rfl h, fun h => ?_⟩
      have hnil : k = [] := List.eq_nil_of_infix_nil h
      subst hnil
      exact absurd rfl hk
  | cons c cs ih =>
    unfold string_find_from
    rw [List.infix_cons_iff]
    by_cases hk : k.isPrefixOf (c :: cs) = true
    · rw [if_pos hk]
      exact ⟨fun _ => Or.inl (List.isPrefixOf_iff_prefix.mp hk), fun _ => by simp⟩
    · rw [if_neg hk, ih (pos + 1)]
      refine ⟨fun h => Or.inr h, fun h => ?_⟩
      rcases h with h | h
      · exact absurd (List.isPrefixOf_iff_prefix.mpr h) hk
      · exact h

theorem string_find_ne_none_iff (s keyword : String) :
    string_find s keyword ≠ none ↔ keyword.data <:+: s.data :=
  string_find_from_ne_none_iff s.data keyword.data 0

theorem string_find_from_is_first (s k : List Char) (pos n : Nat)
    (h : string_find_from s k pos = some n) :
    pos ≤ n ∧ k <+: s.drop (n - pos)
    ∧ ∀ m, m < n - pos → ¬ k <+: s.drop m := by
  induction s generalizing pos with
  | nil =>
    unfold string_find_from at h
    by_cases hk : k.isPrefixOf [] = true
    · rw [if_pos hk] at h
      have hn : pos = n := Option.some.inj h
      subst hn
      refine ⟨Nat.le_refl _, ?_, fun m hm => by omega⟩
      simpa using List.isPrefixOf_iff_prefix.mp hk
    · rw [if_neg hk] at h
      exact absurd h (by simp)
  | cons c cs ih =>
    unfold string_find_from at h
    by_cases hk : k.isPrefixOf (c :: cs) = true
    · rw [if_pos hk] at h
      have hn : pos = n := Option.some.inj h
      subst hn
      refine ⟨Nat.le_refl _, ?_, fun m hm => by omega⟩
      simpa using List.isPrefixOf_iff_prefix.mp hk
    · rw [if_neg hk] at h
      obtain ⟨h1, h2, h3⟩ := ih (pos + 1) h
      have hsplit : n - pos = (n - (pos + 1)) + 1 := by omega
      refine ⟨by omega, ?_, ?_⟩
      · rw [hsplit, List.drop_succ_cons]
        exact h2
      · intro m hm
        cases m with
        | zero =>
          intro hp
          exact hk (List.isPrefixOf_iff_prefix.mpr (by simpa using hp))
        | succ m =>
          rw [List.drop_succ_cons]
          exact h3 m (by omega)

theorem std_find_ne_length_iff (tags : List String) (value : String) :
    std_find tags value ≠ tags.length ↔ value ∈ tags := by
  induction tags with
  | nil => simp [std_find]
  | cons x xs ih =>
    unfold std_find
    by_cases hx : x = value
    · rw [if_pos hx]
      simp [hx]
    · rw [if_neg hx]
      simp only [List.length_cons, ne_eq, Nat.add_right_cancel_iff, List.mem_cons]
      rw [← ne_eq, ih]
      constructor
      · exact fun h => Or.inr h
      · rintro (h | h)
        · exact absurd h.symm hx
        · exact h

/-- C6. For every store and keyword `k`, search returns the tasks whose title
or description contains `k` as a contiguous, case-sensitive substring, each
once and in storage order: it is the filter of the task list by that predicate.
The empty keyword returns all tasks. The query is a function of the store and
returns a new list, so the store is as it was. The search of `src/User.cpp`
behaves the same. -/
theorem search_eq_filter (s : User) (k : String) (v : Lib.User) :
    s.search k = s.tasks.filter (fun t => decide (matchesKeyword k t))
    ∧ s.search "" = s.tasks
    ∧ (∀ t, t ∈ s.search k ↔ t ∈ s.tasks ∧ matchesKeyword k t)
    ∧ (∀ t, (s.search k).count t = if matchesKeyword k t then s.tasks.count t else 0)
    ∧ v.search_tasks k = v.tasks.filter (fun t => decide (matchesKeyword k t))
    ∧ v.search_tasks "" = v.tasks := by
  have key : ∀ (l : List Task) (kw : String),
      l.foldl
        (fun result t =>
          if string_find t.title kw ≠ none ∨ string_find t.description kw ≠ none then
            result ++ [t]
          else result) []
        = l.filter (fun t => decide (matchesKeyword kw t)) := by
    intro l kw
    rw [foldl_push_eq_filter]
    simp only [List.nil_append, matchesKeyword, string_find_ne_none_iff]
  have hall : ∀ l : List Task, l.filter (fun t => decide (matchesKeyword "" t)) = l := by
    intro l
    rw [List.filter_eq_self]
    intro t _
    simp [matchesKeyword]
  have hs : s.search k = s.tasks.filter (fun t => decide (matchesKeyword k t)) :=
    key s.tasks k
  refine ⟨hs, ?_, ?_, ?_, key v.tasks k, ?_⟩
  · exact (key s.tasks "").trans (hall s.tasks)
  · intro t
    rw [hs, List.mem_filter]
    simp
  · intro t
    rw [hs]
    by_cases ht : matchesKeyword k t
    · rw [if_pos ht]
      exact List.count_filter (by simpa using ht)
    · rw [if_neg ht]
      exact List.count_eq_zero.mpr (fun hmem => ht (by simpa using (List.mem_filter.mp hmem).2))
  · exact (key v.tasks "").trans (hall v.tasks)

/-- C7. For every store and tag `x`, the tag filter returns the tasks one of
whose tags equals `x` as a whole string, each once (however often `x` occurs
among its tags) and in storage order: it is the filter of the task list by
that predicate. A task none of whose tags equals `x` is not returned, whatever
its tags contain. -/
theorem filter_by_tag_eq_filter (s : User) (x : String) :
    s.filter_by_tag x = s.tasks.filter (fun t => decide (hasTag x t))
    ∧ (∀ t, t ∈ s.filter_by_tag x ↔ t ∈ s.tasks ∧ ∃ y ∈ t.tags, y = x)
    ∧ (∀ t, (s.filter_by_tag x).count t = if x ∈ t.tags then s.tasks.count t else 0)
    ∧ (∀ t, (∀ y ∈ t.tags, y ≠ x) → t ∉ s.filter_by_tag x) := by
  have hs : s.filter_by_tag x = s.tasks.filter (fun t => decide (hasTag x t)) := by
    unfold User.filter_by_tag
    rw [foldl_push_eq_filter]
    simp only [List.nil_append, hasTag, std_find_ne_length_iff]
  refine ⟨hs, ?_, ?_, ?_⟩
  · intro t
    rw [hs, List.mem_filter]
    simp [hasTag]
  · intro t
    rw [hs]
    by_cases ht : x ∈ t.tags
    · rw [if_pos ht]
      exact List.count_filter (by simpa [hasTag] using ht)
    · rw [if_neg ht]
      exact List.count_eq_zero.mpr
        (fun hmem => ht (by simpa [hasTag] using (List.mem_filter.mp hmem).2))
  · intro t ht hmem
    rw [hs, List.mem_filter] at hmem
    have hx : x ∈ t.tags := by simpa [hasTag] using hmem.2
    exact ht x hx rfl

/-- C7 at a concrete store: no sample task has the tag `hom`, although two of
them have the tag `home`, so the filter by `hom` does not return the first
sample task; the filter by `home` returns the first and the third, the third
once although it carries the tag twice. -/
theorem filter_by_tag_eq_filter_witness :
    (∀ y ∈ sampleTask.tags, y ≠ "hom")
    ∧ sampleTask ∉ sampleUser.filter_by_tag "hom"
    ∧ sampleUser.filter_by_tag "home" = [sampleTask, sampleTask3] :=
  ⟨by decide,
   (filter_by_tag_eq_filter sampleUser "hom").2.2.2 sampleTask (by decide),
   (filter_by_tag_eq_filter sampleUser "home").1.trans (by decide)⟩

/-! ### The priority histogram -/

theorem Priority.toNat_injective (a b : Priority) (h : a.toNat = b.toNat) : a = b := by
  cases a <;> cases b <;> first | rfl | (simp [Priority.toNat] at h)

theorem stats_total_incr (m : List (Priority × Int)) (key : Priority) :
    stats_total (stats_incr m key) = stats_total m + 1 := by
  induction m with
  | nil => simp [stats_incr, stats_total]
  | cons e rest ih =>
    obtain ⟨k, v⟩ := e
    unfold stats_incr
    by_cases h1 : key = k
    · rw [if_pos h1]
      simp only [stats_total]
      omega
    · rw [if_neg h1]
      by_cases h2 : key.toNat < k.toNat
      · rw [if_pos h2]
        simp only [stats_total]
        omega
      · rw [if_neg h2]
        simp only [stats_total, ih]
        omega

theorem stats_lookup_of_lt (m : List (Priority × Int)) (key : Priority)
    (h : ∀ e ∈ m, key.toNat < e.1.toNat) : stats_lookup m key = none := by
  induction m with
  | nil => rfl
  | cons e rest ih =>
    obtain ⟨k, v⟩ := e
    have hk : key.toNat < k.toNat := h (k, v) (List.mem_cons_self _ _)
    have hne : key ≠ k := fun he => by
      rw [he] at hk
      exact Nat.lt_irrefl _ hk
    unfold stats_lookup
    rw [if_neg hne]
    exact ih (fun e he => h e (List.mem_cons_of_mem _ he))

theorem stats_lookup_incr (m : List (Priority × Int)) (key p : Priority) (hm : StatsSorted m) :
    stats_lookup (stats_incr m key) p
      = if p = key then some ((stats_lookup m key).getD 0 + 1) else stats_lookup m p := by
  induction m with
  | nil =>
    by_cases hp : p = key
    · simp [stats_incr, stats_lookup, hp]
    · simp [stats_incr, stats_lookup, hp]
  | cons e rest ih =>
    obtain ⟨k, v⟩ := e
    have hrest : StatsSorted rest := (List.pairwise_cons.mp hm).2
    have hhead : ∀ e ∈ rest, k.toNat < e.1.toNat := (List.pairwise_cons.mp hm).1
    unfold stats_incr
    by_cases h1 : key = k
    · rw [if_pos h1]
      subst h1
      by_cases hp : p = key
      · simp [stats_lookup, hp]
      · simp [stats_lookup, hp]
    · rw [if_neg h1]
      by_cases h2 : key.toNat < k.toNat
      · rw [if_pos h2]
        have hnone : stats_lookup ((k, v) :: rest) key = none := by
          apply stats_lookup_of_lt
          intro e he
          rcases List.mem_cons.mp he with he | he
          · rw [he]
            exact h2
          · exact Nat.lt_trans h2 (hhead e he)
        by_cases hp : p = key
        · rw [if_pos hp, hnone, hp]
          simp [stats_lookup]
        · rw [if_neg hp]
          conv_lhs => unfold stats_lookup
          rw [if_neg hp]
      · rw [if_neg h2]
        by_cases hp : p = key
        · subst hp
          have := ih hrest
          rw [if_pos rfl] at this ⊢
          simp only [stats_lookup, if_neg h1]
          exact this
        · have := ih hrest
          rw [if_neg hp] at this ⊢
          by_cases hpk : p = k
          · simp [stats_lookup, hpk]
          · simp only [stats_lookup, if_neg hpk]
            exact this

theorem stats_sorted_incr (m : List (Priority × Int)) (key : Priority) (hm : StatsSorted m) :
    StatsSorted (stats_incr m key) := by
  induction m with
  | nil => simp [stats_incr, StatsSorted]
  | cons e rest ih =>
    obtain ⟨k, v⟩ := e
    have hrest : StatsSorted rest := (List.pairwise_cons.mp hm).2
    have hhead : ∀ e ∈ rest, k.toNat < e.1.toNat := (List.pairwise_cons.mp hm).1
    unfold stats_incr
    by_cases h1 : key = k
    · rw [if_pos h1]
      exact List.pairwise_cons.mpr ⟨hhead, hrest⟩
    · rw [if_neg h1]
      by_cases h2 : key.toNat < k.toNat
      · rw [if_pos h2]
        refine List.pairwise_cons.mpr ⟨?_, hm⟩
        intro e he
        rcases List.mem_cons.mp he with he | he
        · rw [he]
          exact h2
        · exact Nat.lt_trans h2 (hhead e he)
      · rw [if_neg h2]
        refine List.pairwise_cons.mpr ⟨?_, ih hrest⟩
        intro e he
        have hlt : k.toNat < key.toNat := by
          rcases Nat.lt_trichotomy key.toNat k.toNat with h | h | h
          · exact absurd h h2
          · exact absurd (Priority.toNat_injective _ _ h) h1
          · exact h
        have hkeys : ∀ (l : List (Priority × Int)), (∀ e ∈ l, k.toNat < e.1.toNat) →
            ∀ e ∈ stats_incr l key, k.toNat < e.1.toNat := by
          intro l
          induction l with
          | nil =>
            intro _ e he
            simp only [stats_incr, List.mem_singleton] at he
            rw [he]
            exact hlt
          | cons a l ihl =>
            obtain ⟨ka, va⟩ := a
            intro hl e he
            unfold stats_incr at he
            by_cases c1 : key = ka
            · rw [if_pos c1] at he
              rcases List.mem_cons.mp he with he | he
              · rw [he]
                exact hl (ka, va) (List.mem_cons_self _ _)
              · exact hl e (List.mem_cons_of_mem _ he)
            · rw [if_neg c1] at he
              by_cases c2 : key.toNat < ka.toNat
              · rw [if_pos c2] at he
                rcases List.mem_cons.mp he with he | he
                · rw [he]
                  exact hlt
                · exact hl e he
              · rw [if_neg c2] at he
                rcases List.mem_cons.mp he with he | he
                · rw [he]
                  exact hl (ka, va) (List.mem_cons_self _ _)
                · exact ihl (fun e he => hl e (List.mem_cons_of_mem _ he)) e he
        exact hkeys rest hhead e he

theorem get_priority_stats_invariant (l : List Task) :
    StatsSorted (l.foldl (fun stats task => stats_incr stats task.priority) [])
    ∧ stats_total (l.foldl (fun stats task => stats_incr stats task.priority) []) = l.length
    ∧ ∀ p, stats_lookup (l.foldl (fun stats task => stats_incr stats task.priority) []) p
        = if countPriority p l = 0 then none else some (countPriority p l : Int) := by
  induction l using List.reverseRecOn with
  | nil => exact ⟨List.Pairwise.nil, rfl, fun p => rfl⟩
  | append_singleton l a ih =>
    obtain ⟨hsorted, htotal, hlookup⟩ := ih
    rw [List.foldl_append, List.foldl_cons, List.foldl_nil]
    refine ⟨stats_sorted_incr _ _ hsorted, ?_, ?_⟩
    · rw [stats_total_incr, htotal]
      simp
    · intro p
      rw [stats_lookup_incr _ _ _ hsorted]
      unfold countPriority at hlookup ⊢
      rw [List.countP_append]
      by_cases hp : p = a.priority
      · subst hp
        rw [if_pos rfl, hlookup a.priority]
        by_cases h0 : List.countP (fun t => decide (t.priority = a.priority)) l = 0
        · simp [h0, List.countP_cons]
        · simp [h0, List.countP_cons]
      · rw [if_neg hp, hlookup p]
        have hcount : List.countP (fun t => decide (t.priority = p)) [a] = 0 := by
          simp [List.countP_cons, Ne.symm hp]
        rw [hcount, Nat.add_zero]

/-- C8. For every store, the counts of the priority histogram sum to the
number of tasks, and for each priority the histogram holds the number of tasks
with that priority when there is at least one and has no entry when there is
none. -/
theorem get_priority_stats_counts (s : User) :
    stats_total s.get_priority_stats = s.tasks.length
    ∧ (∀ p, stats_lookup s.get_priority_stats p
        = if countPriority p s.tasks = 0 then none
          else some (countPriority p s.tasks : Int))
    ∧ (∀ p, (p ∈ s.get_priority_stats.map Prod.fst) ↔ ∃ t ∈ s.tasks, t.priority = p)
    ∧ StatsSorted s.get_priority_stats := by
  obtain ⟨hsorted, htotal, hlookup⟩ := get_priority_stats_invariant s.tasks
  refine ⟨htotal, hlookup, ?_, hsorted⟩
  intro p
  have hmem : ∀ (m : List (Priority × Int)),
      p ∈ m.map Prod.fst ↔ stats_lookup m p ≠ none := by
    intro m
    induction m with
    | nil => simp [stats_lookup]
    | cons e rest ih =>
      obtain ⟨k, v⟩ := e
      by_cases hk : p = k
      · simp [stats_lookup, hk]
      · simp only [List.map_cons, List.mem_cons, hk, false_or, stats_lookup, if_false]
        exact ih
  have hl := hlookup p
  unfold User.get_priority_stats
  rw [hmem, hl]
  unfold countPriority
  by_cases h0 : List.countP (fun t => decide (t.priority = p)) s.tasks = 0
  · rw [if_pos h0]
    simp only [ne_eq, not_true_eq_false, false_iff]
    rintro ⟨t, ht, htp⟩
    rw [List.countP_eq_zero] at h0
    exact h0 t ht (by simpa using htp)
  · rw [if_neg h0]
    simp only [ne_eq, reduceCtorEq, not_false_eq_true, true_iff]
    have hpos : 0 < List.countP (fun t => decide (t.priority = p)) s.tasks :=
      Nat.pos_of_ne_zero h0
    obtain ⟨t, ht, htp⟩ := List.countP_pos_iff.mp hpos
    exact ⟨t, ht, by simpa using htp⟩

/-! ## Codecs and persistence -/

/-- C9, as stated, fails for the status decoder: the string `Paused` is
neither `Active` nor `Done`, and it decodes to `Done`, not to `Active`. -/
theorem stringToStatus_unrecognized_not_active :
    "Paused" ≠ "Active" ∧ "Paused" ≠ "Done"
    ∧ stringToStatus "Paused" = Status.Done
    ∧ stringToStatus "Paused" ≠ Status.Active := by
  decide

/-- C9, amended. Every string other than `Low`, `Medium` and `High` decodes to
priority `High`, and every string other than `Active` and `Done` decodes to
status `Done`. -/
theorem lenient_decode :
    (∀ str : String, str ≠ "Low" → str ≠ "Medium" → str ≠ "High" →
        stringToPriority str = Priority.High)
    ∧ (∀ str : String, str ≠ "Active" → str ≠ "Done" →
        stringToStatus str = Status.Done) := by
  constructor
  · intro str h1 h2 _
    unfold stringToPriority
    rw [if_neg h1, if_neg h2]
  · intro str h1 _
    unfold stringToStatus
    rw [if_neg h1]

/-- C9, amended, at concrete strings: `Urgent` and the empty string. -/
theorem lenient_decode_witness :
    ("Urgent" ≠ "Low" ∧ "Urgent" ≠ "Medium" ∧ "Urgent" ≠ "High")
    ∧ stringToPriority "Urgent" = Priority.High
    ∧ ("" ≠ "Active" ∧ "" ≠ "Done")
    ∧ stringToStatus "" = Status.Done :=
  ⟨by decide,
   lenient_decode.1 "Urgent" (by decide) (by decide) (by decide),
   by decide,
   lenient_decode.2 "" (by decide) (by decide)⟩

theorem stringToPriority_priorityToString (p : Priority) :
    stringToPriority (priorityToString p) = p := by
  cases p <;> decide

theorem stringToStatus_statusToString (st : Status) :
    stringToStatus (statusToString st) = st := by
  cases st <;> decide

theorem get_strings_map_str (tags : List String) :
    Json.get_strings (tags.map Json.str) = .ok tags := by
  induction tags with
  | nil => rfl
  | cons x xs ih =>
    simp only [List.map_cons, Json.get_strings, Json.get_string, ih]

theorem from_json_to_json (t : Task) : Task.from_json t.to_json = .ok t := by
  obtain ⟨title, description, priority, status, deadline, tags⟩ := t
  simp [Task.from_json, Task.to_json, Json.at_key, Json.lookup, Json.get_string,
    Json.get_string_vector, get_strings_map_str, stringToPriority_priorityToString,
    stringToStatus_statusToString, bind, Except.bind, pure, Except.pure]

theorem save_document_arr (elems : List Json) (ts : List Task) :
    User.save_document (.arr elems) ts = .ok (.arr (elems ++ ts.map Task.to_json)) := by
  induction ts generalizing elems with
  | nil => simp [User.save_document]
  | cons t ts ih =>
    simp only [User.save_document, Json.push_back, ih, List.map_cons, List.append_assoc,
      List.singleton_append]

theorem save_document_null (ts : List Task) :
    ∃ j, User.save_document .null ts = .ok j ∧ j.items = ts.map Task.to_json := by
  cases ts with
  | nil => exact ⟨.null, rfl, rfl⟩
  | cons t ts =>
    refine ⟨.arr (t.to_json :: ts.map Task.to_json), ?_, rfl⟩
    simp only [User.save_document, Json.push_back, save_document_arr, List.singleton_append]

theorem load_items_to_json (u : User) (ts : List Task) :
    User.load_items u (ts.map Task.to_json)
      = ({ u with tasks := u.tasks ++ ts }, none) := by
  induction ts generalizing u with
  | nil => simp [User.load_items]
  | cons t ts ih =>
    simp only [List.map_cons, User.load_items, from_json_to_json, ih, List.append_assoc,
      List.singleton_append]

/-- C10. Serialisation round trip. Decoding the record that encodes task `t`
gives back `t`, all six fields included, for every `t` (empty texts and an
empty tag list are not special); priority and status survive the trip through
their literal strings; and for every store `u`, saving succeeds and a store
with the same user name, whatever it held, that loads what was saved holds
exactly the tasks of `u`, in the same order, with its own history untouched. -/
theorem save_load_round_trip :
    (∀ t : Task, Task.from_json t.to_json = .ok t)
    ∧ (∀ p : Priority, stringToPriority (priorityToString p) = p)
    ∧ (∀ st : Status, stringToStatus (statusToString st) = st)
    ∧ (∀ (u : User) (fs : FileSystem) (ts : List Task) (hist : List (List Task)),
        (u.save_to_file fs).2 = none
        ∧ User.load_from_file { name := u.name, tasks := ts, history := hist }
            (u.save_to_file fs).1
          = ({ name := u.name, tasks := u.tasks, history := hist }, none)) := by
  refine ⟨from_json_to_json, stringToPriority_priorityToString,
    stringToStatus_statusToString, ?_⟩
  intro u fs ts hist
  obtain ⟨j, hj, hitems⟩ := save_document_null u.tasks
  have hsave : u.save_to_file fs = (fs.write u.file_name (.document j), none) := by
    unfold User.save_to_file
    rw [hj]
  rw [hsave]
  refine ⟨rfl, ?_⟩
  have hread : (fs.write u.file_name (.document j))
      (User.file_name { name := u.name, tasks := ts, history := hist })
      = .document j := by
    simp [FileSystem.write, User.file_name]
  unfold User.load_from_file
  simp only [hread, hitems, load_items_to_json, List.nil_append]

/-! ## The unit tests of `tests/test_user.cpp`, replayed on the embedding -/

/-- The five `UserTests` cases hold of the embedded `src/User.cpp` store. -/
theorem user_tests_pass :
    ((Lib.User.mk_named "test_user").add_task
        ⟨"Title", "Desc", .Medium, .Active, "2030-01-01 12:00", ["tag"]⟩).get_tasks.length
      = (Lib.User.mk_named "test_user").get_tasks.length + 1
    ∧ (((Lib.User.mk_named "test_user").add_task
        ⟨"A", "B", .Low, .Done, "2030-01-01 10:00", []⟩).delete_task 0).get_tasks = []
    ∧ ((Lib.User.mk_named "test_user").delete_task 999).get_tasks = []
    ∧ ((((Lib.User.mk_named "test_user").add_task
          ⟨"Buy milk", "From store", .High, .Active, "2030-01-01 12:00", []⟩).add_task
          ⟨"Do homework", "Math", .Low, .Done, "2030-01-02 12:00", []⟩).search_tasks
          "milk").map Task.title = ["Buy milk"]
    ∧ ((Lib.User.mk_named "test_user").add_task
        ⟨"Call mom", "Evening", .Low, .Active, "2030-01-01 12:00", []⟩).search_tasks
          "nonexistent" = [] := by
  decide

/-! ## Loading a file with a defective record -/

theorem from_json_error_of_lacksField (r : Json) (h : lacksField r = true) :
    ∃ e, Task.from_json r = .error e := by
  cases r with
  | obj members =>
    cases hres : Task.from_json (.obj members) with
    | error e => exact ⟨e, rfl⟩
    | ok t =>
      exfalso
      simp only [lacksField, requiredFields, List.any_cons, List.any_nil, Bool.or_false,
        Bool.or_eq_true, Option.isNone_iff_eq_none] at h
      unfold Task.from_json at hres
      simp only [Json.at_key, bind, Except.bind] at hres
      repeat' split at hres
      all_goals first
        | exact absurd hres (by simp)
        | (rcases h with h | h | h | h | h | h <;> simp_all)
  | null => simp [lacksField] at h
  | bool b => simp [lacksField] at h
  | num n => simp [lacksField] at h
  | str s => simp [lacksField] at h
  | arr elems => simp [lacksField] at h

theorem load_items_first_failure (items : List Json) (u : User)
    (h : ∃ r ∈ items, ∃ e, Task.from_json r = .error e) :
    ∃ pre bad rest ts e,
      items = pre ++ bad :: rest
      ∧ pre.map Task.from_json = ts.map Except.ok
      ∧ Task.from_json bad = .error e
      ∧ User.load_items u items = ({ u with tasks := u.tasks ++ ts }, some e) := by
  induction items generalizing u with
  | nil =>
    obtain ⟨r, hr, _⟩ := h
    exact absurd hr (List.not_mem_nil r)
  | cons x xs ih =>
    cases hx : Task.from_json x with
    | error e =>
      refine ⟨[], x, xs, [], e, rfl, rfl, hx, ?_⟩
      simp [User.load_items, hx]
    | ok t =>
      have hxs : ∃ r ∈ xs, ∃ e, Task.from_json r = .error e := by
        obtain ⟨r, hr, e, he⟩ := h
        rcases List.mem_cons.mp hr with hrx | hrxs
        · rw [hrx, hx] at he
          exact absurd he (by simp)
        · exact ⟨r, hrxs, e, he⟩
      obtain ⟨pre, bad, rest, ts, e, hsplit, hpre, hbad, hload⟩ :=
        ih { u with tasks := u.tasks ++ [t] } hxs
      refine ⟨x :: pre, bad, rest, t :: ts, e, ?_, ?_, hbad, ?_⟩
      · rw [hsplit]
        rfl
      · simp only [List.map_cons, hx, hpre]
      · simp only [User.load_items, hx, hload, List.append_assoc, List.singleton_append]

/-- C11, as stated, fails: a store holding the three sample tasks loads a file
whose second record lacks required fields. The load raises, and the store is
left holding the one record that preceded the bad one, not the tasks it held
before the call. -/
theorem load_failure_is_not_all_or_nothing :
    lacksField titleOnlyRecord = true
    ∧ (sampleUser.load_from_file brokenFiles).2 = some JsonError.out_of_range
    ∧ (sampleUser.load_from_file brokenFiles).1.tasks = [sampleTask2]
    ∧ (sampleUser.load_from_file brokenFiles).1.tasks ≠ sampleUser.tasks := by
  decide

/-- C11, amended. For every store and every persisted sequence of records in
which some record lacks one of the six required fields, load fails with an
error; the store is then left holding exactly the tasks decoded from the
records that precede the first record that fails to decode, in order (what it
held before the call is discarded), with name and history unchanged. -/
theorem load_failure_keeps_decoded_records (u : User) (fs : FileSystem) (records : List Json)
    (hfile : fs u.file_name = .document (.arr records))
    (hbad : ∃ r ∈ records, lacksField r = true) :
    ∃ pre bad rest ts e,
      records = pre ++ bad :: rest
      ∧ pre.map Task.from_json = ts.map Except.ok
      ∧ Task.from_json bad = .error e
      ∧ u.load_from_file fs = ({ u with tasks := ts }, some e) := by
  have hfail : ∃ r ∈ records, ∃ e, Task.from_json r = .error e := by
    obtain ⟨r, hr, hlack⟩ := hbad
    exact ⟨r, hr, from_json_error_of_lacksField r hlack⟩
  obtain ⟨pre, bad, rest, ts, e, hsplit, hpre, hbadrec, hload⟩ :=
    load_items_first_failure records { u with tasks := [] } hfail
  refine ⟨pre, bad, rest, ts, e, hsplit, hpre, hbadrec, ?_⟩
  unfold User.load_from_file
  rw [hfile]
  simp only [Json.items, hload, List.nil_append]

/-- C11, amended, at the concrete store and file above: the load fails and
leaves exactly the decoded first record. -/
theorem load_failure_keeps_decoded_records_witness :
    brokenFiles sampleUser.file_name
        = .document (.arr [sampleTask2.to_json, titleOnlyRecord])
    ∧ (∃ r ∈ [sampleTask2.to_json, titleOnlyRecord], lacksField r = true)
    ∧ ∃ pre bad rest ts e,
        [sampleTask2.to_json, titleOnlyRecord] = pre ++ bad :: rest
        ∧ pre.map Task.from_json = ts.map Except.ok
        ∧ Task.from_json bad = .error e
        ∧ sampleUser.load_from_file brokenFiles = ({ sampleUser with tasks := ts }, some e) :=
  ⟨rfl, ⟨titleOnlyRecord, by simp, by decide⟩,
   load_failure_keeps_decoded_records sampleUser brokenFiles
     [sampleTask2.to_json, titleOnlyRecord] rfl ⟨titleOnlyRecord, by simp, by decide⟩⟩

/-! ## Deadline classifiers -/

theorem isUrgent_of_parsed (lib : TimeLib) (now : Int) (d : String) (tm : Tm)
    (h : lib.get_time d = some tm) :
    isUrgent lib now d = true ↔ now < lib.mktime tm ∧ lib.mktime tm - now ≤ 86400 := by
  unfold isUrgent
  rw [h]
  simp only [difftime, gt_iff_lt, Bool.and_eq_true, decide_eq_true_eq]
  constructor
  · rintro ⟨h1, h2⟩
    exact ⟨by omega, h2⟩
  · rintro ⟨h1, h2⟩
    exact ⟨by omega, h2⟩

theorem isOverdue_of_parsed (lib : TimeLib) (now : Int) (d : String) (tm : Tm)
    (h : lib.get_time d = some tm) :
    isOverdue lib now d = true ↔ lib.mktime tm < now := by
  unfold isOverdue
  rw [h]
  simp only [difftime, decide_eq_true_eq]
  omega

theorem isUrgent_of_unparsed (lib : TimeLib) (now : Int) (d : String)
    (h : lib.get_time d = none) : isUrgent lib now d = false := by
  unfold isUrgent
  rw [h]

theorem isOverdue_of_unparsed (lib : TimeLib) (now : Int) (d : String)
    (h : lib.get_time d = none) : isOverdue lib now d = false := by
  unfold isOverdue
  rw [h]

/-- C12. With the current instant `now` as a parameter, for every deadline
text `d`: `isUrgent` is false when `d` fails to parse, and when `d` parses to
the instant `t` it is true exactly when `now < t` and `t - now ≤ 86400`. So a
deadline 12 hours ahead is urgent, one exactly 24 hours ahead is urgent, one
25 hours ahead is not, and one at `now` is not. This holds whatever the
library's parser and time zone are. -/
theorem isUrgent_window (lib : TimeLib) (now : Int) (d : String) :
    (lib.get_time d = none → isUrgent lib now d = false)
    ∧ (∀ tm, lib.get_time d = some tm →
        (isUrgent lib now d = true ↔ now < lib.mktime tm ∧ lib.mktime tm - now ≤ 86400))
    ∧ (∀ tm, lib.get_time d = some tm → lib.mktime tm = now + 12 * 3600 →
        isUrgent lib now d = true)
    ∧ (∀ tm, lib.get_time d = some tm → lib.mktime tm = now + 24 * 3600 →
        isUrgent lib now d = true)
    ∧ (∀ tm, lib.get_time d = some tm → lib.mktime tm = now + 25 * 3600 →
        isUrgent lib now d = false)
    ∧ (∀ tm, lib.get_time d = some tm → lib.mktime tm = now →
        isUrgent lib now d = false) := by
  refine ⟨isUrgent_of_unparsed lib now d, isUrgent_of_parsed lib now d, ?_, ?_, ?_, ?_⟩
  · intro tm h ht
    rw [isUrgent_of_parsed lib now d tm h, ht]
    omega
  · intro tm h ht
    rw [isUrgent_of_parsed lib now d tm h, ht]
    omega
  · intro tm h ht
    rw [← Bool.not_eq_true, isUrgent_of_parsed lib now d tm h, ht]
    omega
  · intro tm h ht
    rw [← Bool.not_eq_true, isUrgent_of_parsed lib now d tm h, ht]
    omega

/-- C12 at concrete deadlines, with the concrete time library and the clock
at 2030-01-01 00:00 (instant 1893456000): the deadline at noon of that day is
12 hours ahead and urgent, the one at midnight of the next day is exactly 24
hours ahead and urgent, the one at 01:00 of the next day is 25 hours ahead and
not urgent, the one at the clock's instant is not urgent, and a text that does
not parse is not urgent. -/
theorem isUrgent_window_witness :
    stdTime.get_time "not-a-date" = none
    ∧ isUrgent stdTime 1893456000 "not-a-date" = false
    ∧ (stdTime.get_time "2030-01-01 12:00").map stdTime.mktime = some (1893456000 + 12 * 3600)
    ∧ isUrgent stdTime 1893456000 "2030-01-01 12:00" = true
    ∧ (stdTime.get_time "2030-01-02 00:00").map stdTime.mktime = some (1893456000 + 24 * 3600)
    ∧ isUrgent stdTime 1893456000 "2030-01-02 00:00" = true
    ∧ (stdTime.get_time "2030-01-02 01:00").map stdTime.mktime = some (1893456000 + 25 * 3600)
    ∧ isUrgent stdTime 1893456000 "2030-01-02 01:00" = false
    ∧ (stdTime.get_time "2030-01-01 00:00").map stdTime.mktime = some 1893456000
    ∧ isUrgent stdTime 1893456000 "2030-01-01 00:00" = false :=
  ⟨by decide,
   (isUrgent_window stdTime 1893456000 "not-a-date").1 (by decide),
   by decide,
   (isUrgent_window stdTime 1893456000 "2030-01-01 12:00").2.2.1
     ⟨0, 0, 12, 1, 0, 130⟩ (by decide) (by decide),
   by decide,
   (isUrgent_window stdTime 1893456000 "2030-01-02 00:00").2.2.2.1
     ⟨0, 0, 0, 2, 0, 130⟩ (by decide) (by decide),
   by decide,
   (isUrgent_window stdTime 1893456000 "2030-01-02 01:00").2.2.2.2.1
     ⟨0, 0, 1, 2, 0, 130⟩ (by decide) (by decide),
   by decide,
   (isUrgent_window stdTime 1893456000 "2030-01-01 00:00").2.2.2.2.2
     ⟨0, 0, 0, 1, 0, 130⟩ (by decide) (by decide)⟩

/-- C13. For every deadline text and every current instant: `isOverdue` and
`isUrgent` are never both true; `isOverdue` is true exactly when the text
parses and the parsed instant is strictly before now; and for a text that
fails to parse both classifiers return false (they are total functions, so
nothing is raised). This holds whatever the library's parser and time zone
are. -/
theorem overdue_urgent_exclusive (lib : TimeLib) (now : Int) (d : String) :
    ¬ (isOverdue lib now d = true ∧ isUrgent lib now d = true)
    ∧ (isOverdue lib now d = true ↔ ∃ tm, lib.get_time d = some tm ∧ lib.mktime tm < now)
    ∧ (lib.get_time d = none → isOverdue lib now d = false ∧ isUrgent lib now d = false) := by
  refine ⟨?_, ?_, fun h => ⟨isOverdue_of_unparsed lib now d h, isUrgent_of_unparsed lib now d h⟩⟩
  · rintro ⟨ho, hu⟩
    cases hp : lib.get_time d with
    | none =>
      rw [isOverdue_of_unparsed lib now d hp] at ho
      exact absurd ho (by simp)
    | some tm =>
      rw [isOverdue_of_parsed lib now d tm hp] at ho
      rw [isUrgent_of_parsed lib now d tm hp] at hu
      omega
  · cases hp : lib.get_time d with
    | none =>
      rw [isOverdue_of_unparsed lib now d hp]
      simp
    | some tm =>
      rw [isOverdue_of_parsed lib now d tm hp]
      simp

/-- C13 at concrete deadlines, with the concrete time library and the clock
at 2030-01-01 00:00: a text that does not parse is neither overdue nor urgent,
the deadline `2000-01-01 00:00` is overdue and `2999-01-01 00:00` is not. -/
theorem overdue_urgent_exclusive_witness :
    stdTime.get_time "not-a-date" = none
    ∧ (isOverdue stdTime 1893456000 "not-a-date" = false
        ∧ isUrgent stdTime 1893456000 "not-a-date" = false)
    ∧ isOverdue stdTime 1893456000 "2000-01-01 00:00" = true
    ∧ ¬ (isOverdue stdTime 1893456000 "2999-01-01 00:00" = true
        ∧ isUrgent stdTime 1893456000 "2999-01-01 00:00" = true) :=
  ⟨by decide,
   (overdue_urgent_exclusive stdTime 1893456000 "not-a-date").2.2 (by decide),
   (overdue_urgent_exclusive stdTime 1893456000 "2000-01-01 00:00").2.1.mpr
     ⟨⟨0, 0, 0, 1, 0, 100⟩, by decide, by decide⟩,
   (overdue_urgent_exclusive stdTime 1893456000 "2999-01-01 00:00").1⟩

/-! ## The calendar grouping -/

theorem map_find_of_lt {β : Type} (m : List (Int × β)) (key : Int)
    (h : ∀ e ∈ m, key < e.1) : map_find m key = none := by
  induction m with
  | nil => rfl
  | cons e rest ih =>
    obtain ⟨k, v⟩ := e
    have hk : key < k := h (k, v) (List.mem_cons_self _ _)
    unfold map_find
    rw [if_neg (by omega)]
    exact ih (fun e he => h e (List.mem_cons_of_mem _ he))

theorem map_update_keys {β : Type} (m : List (Int × β)) (key : Int) (f : Option β → β)
    (e : Int × β) (he : e ∈ map_update m key f) : e.1 = key ∨ ∃ e0 ∈ m, e0.1 = e.1 := by
  induction m with
  | nil =>
    simp only [map_update, List.mem_singleton] at he
    exact Or.inl (by rw [he])
  | cons a rest ih =>
    obtain ⟨k, v⟩ := a
    unfold map_update at he
    by_cases h1 : key = k
    · rw [if_pos h1] at he
      rcases List.mem_cons.mp he with he | he
      · exact Or.inl (by rw [he, h1])
      · exact Or.inr ⟨e, List.mem_cons_of_mem _ he, rfl⟩
    · rw [if_neg h1] at he
      by_cases h2 : key < k
      · rw [if_pos h2] at he
        rcases List.mem_cons.mp he with he | he
        · exact Or.inl (by rw [he])
        · exact Or.inr ⟨e, he, rfl⟩
      · rw [if_neg h2] at he
        rcases List.mem_cons.mp he with he | he
        · exact Or.inr ⟨(k, v), List.mem_cons_self _ _, by rw [he]⟩
        · rcases ih he with h | ⟨e0, he0, h⟩
          · exact Or.inl h
          · exact Or.inr ⟨e0, List.mem_cons_of_mem _ he0, h⟩

theorem map_sorted_update {β : Type} (m : List (Int × β)) (key : Int) (f : Option β → β)
    (hm : MapSorted m) : MapSorted (map_update m key f) := by
  induction m with
  | nil => simp [map_update, MapSorted]
  | cons a rest ih =>
    obtain ⟨k, v⟩ := a
    have hrest : MapSorted rest := (List.pairwise_cons.mp hm).2
    have hhead : ∀ e ∈ rest, k < e.1 := (List.pairwise_cons.mp hm).1
    unfold map_update
    by_cases h1 : key = k
    · rw [if_pos h1]
      exact List.pairwise_cons.mpr ⟨hhead, hrest⟩
    · rw [if_neg h1]
      by_cases h2 : key < k
      · rw [if_pos h2]
        refine List.pairwise_cons.mpr ⟨?_, hm⟩
        intro e he
        rcases List.mem_cons.mp he with he | he
        · rw [he]
          exact h2
        · exact Int.lt_trans h2 (hhead e he)
      · rw [if_neg h2]
        refine List.pairwise_cons.mpr ⟨?_, ih hrest⟩
        intro e he
        rcases map_update_keys rest key f e he with h | ⟨e0, he0, h⟩
        · show k < e.1
          omega
        · show k < e.1
          rw [← h]
          exact hhead e0 he0

theorem map_find_update {β : Type} (m : List (Int × β)) (key k : Int) (f : Option β → β)
    (hm : MapSorted m) :
    map_find (map_update m key f) k
      = if k = key then some (f (map_find m key)) else map_find m k := by
  induction m with
  | nil =>
    by_cases hk : k = key
    · simp [map_update, map_find, hk]
    · simp [map_update, map_find, hk]
  | cons a rest ih =>
    obtain ⟨k0, v⟩ := a
    have hrest : MapSorted rest := (List.pairwise_cons.mp hm).2
    have hhead : ∀ e ∈ rest, k0 < e.1 := (List.pairwise_cons.mp hm).1
    unfold map_update
    by_cases h1 : key = k0
    · rw [if_pos h1]
      subst h1
      by_cases hk : k = key
      · simp [map_find, hk]
      · simp [map_find, hk]
    · rw [if_neg h1]
      by_cases h2 : key < k0
      · rw [if_pos h2]
        have hnone : map_find ((k0, v) :: rest) key = none := by
          apply map_find_of_lt
          intro e he
          rcases List.mem_cons.mp he with he | he
          · rw [he]
            exact h2
          · exact Int.lt_trans h2 (hhead e he)
        by_cases hk : k = key
        · rw [if_pos hk, hnone, hk]
          simp [map_find]
        · rw [if_neg hk]
          conv_lhs => unfold map_find
          rw [if_neg hk]
      · rw [if_neg h2]
        have hih := ih hrest
        by_cases hk : k = key
        · subst hk
          rw [if_pos rfl] at hih ⊢
          simp only [map_find, if_neg h1]
          exact hih
        · rw [if_neg hk] at hih ⊢
          by_cases hk0 : k = k0
          · simp [map_find, hk0]
          · simp only [map_find, if_neg hk0]
            exact hih

theorem months_of_sorted (data : CalendarData) (year : Int) (h : CalendarSorted data) :
    MapSorted ((map_find data year).getD [])
    ∧ ∀ month days, map_find ((map_find data year).getD []) month = some days →
        MapSorted days := by
  cases hy : map_find data year with
  | none =>
    refine ⟨List.Pairwise.nil, ?_⟩
    intro month days hd
    simp [map_find] at hd
  | some months => exact h.2 year months hy

theorem days_of_sorted (months : List (Int × List (Int × List Task))) (month : Int)
    (h : ∀ mo days, map_find months mo = some days → MapSorted days) :
    MapSorted ((map_find months month).getD []) := by
  cases hm : map_find months month with
  | none => exact List.Pairwise.nil
  | some days => exact h month days hm

theorem calendar_sorted_push (data : CalendarData) (year month day : Int) (task : Task)
    (h : CalendarSorted data) : CalendarSorted (calendar_push data year month day task) := by
  obtain ⟨hmonths, hdays⟩ := months_of_sorted data year h
  refine ⟨map_sorted_update _ _ _ h.1, ?_⟩
  intro y months hfind
  unfold calendar_push at hfind
  rw [map_find_update _ _ _ _ h.1] at hfind
  by_cases hy : y = year
  · rw [if_pos hy] at hfind
    have hmo := Option.some.inj hfind
    rw [← hmo]
    refine ⟨map_sorted_update _ _ _ hmonths, ?_⟩
    intro mo days hfd
    rw [map_find_update _ _ _ _ hmonths] at hfd
    by_cases hm : mo = month
    · rw [if_pos hm] at hfd
      rw [← Option.some.inj hfd]
      exact map_sorted_update _ _ _ (days_of_sorted _ month hdays)
    · rw [if_neg hm] at hfd
      exact hdays mo days hfd
  · rw [if_neg hy] at hfind
    exact h.2 y months hfind

theorem calendar_entry_push (data : CalendarData) (year month day : Int) (task : Task)
    (h : CalendarSorted data) (y m d : Int) :
    calendar_entry (calendar_push data year month day task) y m d
      = if y = year ∧ m = month ∧ d = day then
          some ((calendar_entry data year month day).getD [] ++ [task])
        else calendar_entry data y m d := by
  obtain ⟨hmonths, hdays⟩ := months_of_sorted data year h
  have hdsorted := days_of_sorted _ month hdays
  unfold calendar_entry calendar_push
  rw [map_find_update _ _ _ _ h.1]
  by_cases hy : y = year
  · subst hy
    rw [if_pos rfl, Option.some_bind, map_find_update _ _ _ _ hmonths]
    by_cases hm : m = month
    · subst hm
      rw [if_pos rfl, Option.some_bind, map_find_update _ _ _ _ hdsorted]
      by_cases hd : d = day
      · subst hd
        rw [if_pos rfl, if_pos ⟨rfl, rfl, rfl⟩]
        cases hf1 : map_find data y with
        | none => simp [map_find]
        | some months =>
          simp only [Option.getD_some, Option.some_bind]
          cases hf2 : map_find months m with
          | none => simp [map_find]
          | some days => simp
      · rw [if_neg hd, if_neg (fun hc => hd hc.2.2)]
        cases hf1 : map_find data y with
        | none => simp [map_find]
        | some months =>
          simp only [Option.getD_some, Option.some_bind]
          cases hf2 : map_find months m with
          | none => simp [map_find]
          | some days => simp
    · rw [if_neg hm, if_neg (fun hc => hm hc.2.1)]
      cases hf1 : map_find data y with
      | none => simp [map_find]
      | some months => simp
  · rw [if_neg hy, if_neg (fun hc => hy hc.1)]

theorem calendar_group_invariant (lib : TimeLib) (tasks : List Task) :
    CalendarSorted (calendar_group lib tasks)
    ∧ ∀ y m d, calendar_entry (calendar_group lib tasks) y m d
        = if tasks.filter (deadlineOn lib y m d) = [] then none
          else some (tasks.filter (deadlineOn lib y m d)) := by
  induction tasks using List.reverseRecOn with
  | nil =>
    refine ⟨⟨List.Pairwise.nil, ?_⟩, fun y m d => rfl⟩
    intro year months hfind
    simp [calendar_group, map_find] at hfind
  | append_singleton l task ih =>
    obtain ⟨hsorted, hentry⟩ := ih
    unfold calendar_group at hsorted hentry ⊢
    rw [List.foldl_append, List.foldl_cons, List.foldl_nil]
    cases hp : lib.get_time task.deadline with
    | none =>
      refine ⟨hsorted, ?_⟩
      intro y m d
      have hno : deadlineOn lib y m d task = false := by
        simp [deadlineOn, hp]
      rw [hentry y m d, List.filter_append]
      simp [hno]
    | some tm =>
      refine ⟨calendar_sorted_push _ _ _ _ _ hsorted, ?_⟩
      intro y m d
      simp only []
      rw [calendar_entry_push _ _ _ _ _ hsorted, List.filter_append]
      by_cases hkey : y = tm.tm_year + 1900 ∧ m = tm.tm_mon ∧ d = tm.tm_mday
      · have hyes : deadlineOn lib y m d task = true := by
          simp [deadlineOn, hp, hkey]
        obtain ⟨hy, hm, hd⟩ := hkey
        rw [if_pos ⟨hy, hm, hd⟩, ← hy, ← hm, ← hd, hentry y m d]
        by_cases hnil : l.filter (deadlineOn lib y m d) = []
        · simp [hnil, hyes]
        · simp [hnil, hyes]
      · have hno : deadlineOn lib y m d task = false := by
          simp only [deadlineOn, hp, decide_eq_false_iff_not]
          rintro ⟨h1, h2, h3⟩
          exact hkey ⟨h1.symm, h2.symm, h3.symm⟩
        rw [if_neg hkey, hentry y m d]
        simp [hno]

/-- C14. For every task list, the calendar grouping's entry for a year, a
zero-based month index and a day of month is exactly the storage-order sublist
of the tasks whose deadline parses to that year, month and day (and there is
no entry when no task does); a task whose deadline fails to parse is in no
group. With the concrete time library, the deadlines `2030-02-15 10:00` and
`2030-02-20 10:00` land under year 2030, month index 1, days 15 and 20, and
`not-a-date` lands nowhere. -/
theorem calendar_group_entries (lib : TimeLib) (tasks : List Task) :
    (∀ y m d, calendar_entry (calendar_group lib tasks) y m d
        = if tasks.filter (deadlineOn lib y m d) = [] then none
          else some (tasks.filter (deadlineOn lib y m d)))
    ∧ (∀ y m d, (calendar_entry (calendar_group lib tasks) y m d).getD []
        = tasks.filter (deadlineOn lib y m d))
    ∧ (∀ t, lib.get_time t.deadline = none →
        ∀ y m d grp, calendar_entry (calendar_group lib tasks) y m d = some grp → t ∉ grp)
    ∧ CalendarSorted (calendar_group lib tasks)
    ∧ calendar_group stdTime calendarTasks
        = [(2030, [(1, [(15, [taskFeb15]), (20, [taskFeb20])])])] := by
  obtain ⟨hsorted, hentry⟩ := calendar_group_invariant lib tasks
  refine ⟨hentry, ?_, ?_, hsorted, rfl⟩
  · intro y m d
    rw [hentry y m d]
    by_cases hnil : tasks.filter (deadlineOn lib y m d) = []
    · rw [if_pos hnil, hnil]
      rfl
    · rw [if_neg hnil]
      rfl
  · intro t ht y m d grp hgrp hmem
    rw [hentry y m d] at hgrp
    by_cases hnil : tasks.filter (deadlineOn lib y m d) = []
    · rw [if_pos hnil] at hgrp
      exact absurd hgrp (by simp)
    · rw [if_neg hnil] at hgrp
      rw [← Option.some.inj hgrp, List.mem_filter] at hmem
      have hon := hmem.2
      simp [deadlineOn, ht] at hon

/-- C14 at the concrete task list: the two dated tasks are the entries of
15 and 20 February 2030, and the task whose deadline does not parse is in
neither. -/
theorem calendar_group_entries_witness :
    stdTime.get_time sampleTask3.deadline = none
    ∧ calendar_entry (calendar_group stdTime calendarTasks) 2030 1 15 = some [taskFeb15]
    ∧ calendar_entry (calendar_group stdTime calendarTasks) 2030 1 20 = some [taskFeb20]
    ∧ sampleTask3 ∉ [taskFeb15]
    ∧ sampleTask3 ∉ [taskFeb20] :=
  ⟨by decide,
   ((calendar_group_entries stdTime calendarTasks).1 2030 1 15).trans (by decide),
   ((calendar_group_entries stdTime calendarTasks).1 2030 1 20).trans (by decide),
   (calendar_group_entries stdTime calendarTasks).2.2.1 sampleTask3 (by decide)
     2030 1 15 [taskFeb15] (by decide),
   (calendar_group_entries stdTime calendarTasks).2.2.1 sampleTask3 (by decide)
     2030 1 20 [taskFeb20] (by decide)⟩

/-! ## The month grid -/

theorem leap_test_iff (year : Int) :
    (year.tmod 4 = 0 ∧ (year.tmod 100 ≠ 0 ∨ year.tmod 400 = 0)) ↔ isLeapYear year := by
  unfold isLeapYear
  rw [Int.dvd_iff_tmod_eq_zero, Int.dvd_iff_tmod_eq_zero, Int.dvd_iff_tmod_eq_zero]

theorem maxDays_february (year : Int) :
    maxDays year 1 = if isLeapYear year then 29 else 28 := by
  unfold maxDays
  rw [if_pos rfl]
  by_cases h : isLeapYear year
  · rw [if_pos h, if_pos ((leap_test_iff year).mpr h)]
  · rw [if_neg h, if_neg (fun hc => h ((leap_test_iff year).mp hc))]

/-- C15. For every year and every zero-based month index 0..11, the day count
computed for the month grid is the Gregorian length of the month: 31 for
January, March, May, July, August, October and December, 30 for April, June,
September and November, and for February 29 exactly when the year is
divisible by 4 and not by 100 unless by 400, else 28. -/
theorem maxDays_is_month_length (year : Int) (month : Nat) (h : month ≤ 11) :
    maxDays year month = gregorianMonthLength year month
    ∧ (maxDays year 1 = 29 ↔ (4 ∣ year ∧ (¬ 100 ∣ year ∨ 400 ∣ year)))
    ∧ (maxDays year 1 = 28 ↔ ¬ (4 ∣ year ∧ (¬ 100 ∣ year ∨ 400 ∣ year)))
    ∧ (∀ m ∈ [0, 2, 4, 6, 7, 9, 11], maxDays year m = 31)
    ∧ (∀ m ∈ [3, 5, 8, 10], maxDays year m = 30) := by
  refine ⟨?_, ?_, ?_, ?_, ?_⟩
  · interval_cases month
    · rfl
    · exact maxDays_february year
    all_goals rfl
  · rw [maxDays_february]
    by_cases hl : isLeapYear year
    · rw [if_pos hl]
      exact ⟨fun _ => hl, fun _ => rfl⟩
    · rw [if_neg hl]
      exact ⟨fun hc => absurd hc (by decide), fun hc => absurd hc hl⟩
  · rw [maxDays_february]
    by_cases hl : isLeapYear year
    · rw [if_pos hl]
      exact ⟨fun hc => absurd hc (by decide), fun hc => absurd hl hc⟩
    · rw [if_neg hl]
      exact ⟨fun _ => hl, fun _ => rfl⟩
  · intro m hm
    simp only [List.mem_cons, List.mem_singleton, List.not_mem_nil, or_false] at hm
    rcases hm with rfl | rfl | rfl | rfl | rfl | rfl | rfl <;> rfl
  · intro m hm
    simp only [List.mem_cons, List.mem_singleton, List.not_mem_nil, or_false] at hm
    rcases hm with rfl | rfl | rfl | rfl <;> rfl

/-- C15 at concrete months: February of 2024, 1900, 2000 and 2030, and April
of 2030. -/
theorem maxDays_is_month_length_witness :
    (1 : Nat) ≤ 11
    ∧ maxDays 2024 (1 : Nat) = gregorianMonthLength 2024 1
    ∧ maxDays 2024 1 = 29 ∧ maxDays 1900 1 = 28 ∧ maxDays 2000 1 = 29
    ∧ maxDays 2030 1 = 28 ∧ maxDays 2030 3 = 30 :=
  ⟨by decide, (maxDays_is_month_length 2024 1 (by decide)).1,
   by decide, by decide, by decide, by decide, by decide⟩

/-! ## The calendar window's month index -/

theorem sort_insert_length {α : Type} (lt : α → α → Bool) (x : α) (l : List α) :
    (sort_insert lt x l).length = l.length + 1 := by
  induction l with
  | nil => rfl
  | cons y ys ih =>
    unfold sort_insert
    by_cases h : lt y x = true
    · rw [if_pos h, List.length_cons, ih]
      rfl
    · rw [if_neg h]
      rfl

theorem std_sort_length {α : Type} (lt : α → α → Bool) (l : List α) :
    (std_sort lt l).length = l.length := by
  induction l with
  | nil => rfl
  | cons x xs ih =>
    unfold std_sort
    rw [sort_insert_length, ih]
    rfl

theorem collect_months_length (year : Int) (months : List (Int × List (Int × List Task)))
    (acc : List (Int × Int)) :
    (collect_months year months acc).length = acc.length + months.length := by
  unfold collect_months
  induction months generalizing acc with
  | nil => rfl
  | cons e rest ih =>
    rw [List.foldl_cons, ih]
    simp only [List.length_append, List.length_cons, List.length_nil]
    omega

theorem collect_all_length (data : CalendarData) (acc : List (Int × Int)) :
    (data.foldl (fun available entry => collect_months entry.1 entry.2 available) acc).length
      = acc.length + (data.map (fun entry => entry.2.length)).sum := by
  induction data generalizing acc with
  | nil => simp
  | cons e rest ih =>
    rw [List.foldl_cons, ih, collect_months_length]
    simp only [List.map_cons, List.sum_cons]
    omega

theorem map_update_ne_nil {β : Type} (m : List (Int × β)) (key : Int) (f : Option β → β) :
    map_update m key f ≠ [] := by
  cases m with
  | nil => simp [map_update]
  | cons a rest =>
    obtain ⟨k, v⟩ := a
    unfold map_update
    by_cases h1 : key = k
    · rw [if_pos h1]
      exact List.cons_ne_nil _ _
    · rw [if_neg h1]
      by_cases h2 : key < k
      · rw [if_pos h2]
        exact List.cons_ne_nil _ _
      · rw [if_neg h2]
        exact List.cons_ne_nil _ _

theorem map_update_values {β : Type} (P : β → Prop) (m : List (Int × β)) (key : Int)
    (f : Option β → β) (hm : ∀ e ∈ m, P e.2) (hf : ∀ o, P (f o)) :
    ∀ e ∈ map_update m key f, P e.2 := by
  induction m with
  | nil =>
    intro e he
    simp only [map_update, List.mem_singleton] at he
    rw [he]
    exact hf none
  | cons a rest ih =>
    obtain ⟨k, v⟩ := a
    intro e he
    unfold map_update at he
    by_cases h1 : key = k
    · rw [if_pos h1] at he
      rcases List.mem_cons.mp he with he | he
      · rw [he]
        exact hf (some v)
      · exact hm e (List.mem_cons_of_mem _ he)
    · rw [if_neg h1] at he
      by_cases h2 : key < k
      · rw [if_pos h2] at he
        rcases List.mem_cons.mp he with he | he
        · rw [he]
          exact hf none
        · exact hm e he
      · rw [if_neg h2] at he
        rcases List.mem_cons.mp he with he | he
        · rw [he]
          exact hm (k, v) (List.mem_cons_self _ _)
        · exact ih (fun e he => hm e (List.mem_cons_of_mem _ he)) e he

theorem calendar_group_months_nonempty (lib : TimeLib) (tasks : List Task) :
    (∀ e ∈ calendar_group lib tasks, e.2 ≠ [])
    ∧ (calendar_group lib tasks = [] ↔ ∀ t ∈ tasks, lib.get_time t.deadline = none) := by
  induction tasks using List.reverseRecOn with
  | nil =>
    refine ⟨fun e he => ?_, by simp [calendar_group]⟩
    simp [calendar_group] at he
  | append_singleton l task ih =>
    obtain ⟨hne, hnil⟩ := ih
    unfold calendar_group at hne hnil ⊢
    rw [List.foldl_append, List.foldl_cons, List.foldl_nil]
    cases hp : lib.get_time task.deadline with
    | none =>
      refine ⟨hne, ?_⟩
      simp only []
      rw [hnil]
      constructor
      · intro h t ht
        rcases List.mem_append.mp ht with ht | ht
        · exact h t ht
        · rw [List.mem_singleton.mp ht]
          exact hp
      · intro h t ht
        exact h t (List.mem_append_left _ ht)
    | some tm =>
      simp only []
      refine ⟨?_, ?_⟩
      · unfold calendar_push
        exact map_update_values (fun months => months ≠ []) _ _ _ hne
          (fun o => map_update_ne_nil _ _ _)
      · constructor
        · intro h
          exact absurd h (map_update_ne_nil _ _ _)
        · intro h
          have := h task (List.mem_append_right _ (List.mem_singleton.mpr rfl))
          rw [hp] at this
          exact absurd this (by simp)

theorem available_months_eq_nil_iff (lib : TimeLib) (tasks : List Task) :
    available_months (calendar_group lib tasks) = []
      ↔ ∀ t ∈ tasks, lib.get_time t.deadline = none := by
  obtain ⟨hne, hnil⟩ := calendar_group_months_nonempty lib tasks
  rw [← hnil, ← List.length_eq_zero]
  unfold available_months
  rw [std_sort_length, collect_all_length]
  cases hdata : calendar_group lib tasks with
  | nil => simp
  | cons e rest =>
    have he : e.2 ≠ [] := hne e (by rw [hdata]; exact List.mem_cons_self _ _)
    have hpos : 0 < e.2.length := List.length_pos.mpr he
    simp only [List.length_nil, List.map_cons, List.sum_cons, Nat.zero_add, reduceCtorEq,
      iff_false]
    omega

theorem key_pressed_in_range (months : List (Int × Int)) (index : Int) (k : Key)
    (h : 0 ≤ index ∧ index < months.length) :
    0 ≤ key_pressed months index k ∧ key_pressed months index k < months.length := by
  cases k with
  | Left =>
    simp only [key_pressed]
    omega
  | Right =>
    simp only [key_pressed]
    omega
  | Other => exact h

theorem events_in_range (months : List (Int × Int)) (events : List Key) (index : Int)
    (h : 0 ≤ index ∧ index < months.length) :
    0 ≤ events.foldl (key_pressed months) index
    ∧ events.foldl (key_pressed months) index < months.length := by
  induction events generalizing index with
  | nil => exact h
  | cons k ks ih =>
    rw [List.foldl_cons]
    exact ih _ (key_pressed_in_range months index k h)

theorem displayed_month_in_range (months : List (Int × Int)) (index : Int)
    (h : 0 ≤ index ∧ index < months.length) : displayed_month months index ≠ none := by
  unfold displayed_month
  rw [if_pos h.1]
  intro hnone
  rw [List.getElem?_eq_none_iff] at hnone
  omega

theorem calendar_frames_in_range (months : List (Int × Int)) (frames : List (List Key))
    (index : Int) (h : 0 ≤ index ∧ index < months.length) :
    ∀ r ∈ calendar_frames months index frames, r ≠ none := by
  induction frames generalizing index with
  | nil =>
    intro r hr
    simp [calendar_frames] at hr
  | cons events rest ih =>
    intro r hr
    have hin := events_in_range months events index h
    simp only [calendar_frames, List.mem_cons] at hr
    rcases hr with hr | hr
    · rw [hr]
      exact displayed_month_in_range months _ hin
    · exact ih _ hin r hr

/-- The month lookup of the calendar window stays inside `availableMonths`,
for every sequence of frames and key presses, exactly when some task of the
store has a deadline that parses. -/
theorem calendar_lookup_valid_iff (lib : TimeLib) (tasks : List Task) :
    (∀ frames, ∀ r ∈ openCalendarWindow lib tasks frames, r ≠ none)
      ↔ ∃ t ∈ tasks, lib.get_time t.deadline ≠ none := by
  constructor
  · intro h
    by_contra hno
    have hall : ∀ t ∈ tasks, lib.get_time t.deadline = none := by
      intro t ht
      by_contra hp
      exact hno ⟨t, ht, hp⟩
    have hnil := (available_months_eq_nil_iff lib tasks).mpr hall
    have hfirst := h [[]] (displayed_month (available_months (calendar_group lib tasks)) 0)
      (by simp [openCalendarWindow, calendar_frames])
    rw [hnil] at hfirst
    exact hfirst rfl
  · rintro ⟨t, ht, hp⟩ frames
    have hne : available_months (calendar_group lib tasks) ≠ [] := by
      intro hnil
      exact hp ((available_months_eq_nil_iff lib tasks).mp hnil t ht)
    have hpos : 0 < (available_months (calendar_group lib tasks)).length :=
      List.length_pos.mpr hne
    exact calendar_frames_in_range _ frames 0 ⟨Int.le_refl 0, by omega⟩

/-- C16 fails on a store without a parsable deadline. On the empty store, and
on a store whose only task has the deadline `not-a-date`, `availableMonths` is
empty, so the lookup `availableMonths[currentIndex]` of the very first frame,
with `currentIndex = 0` and no key pressed, is outside the vector; after a
Right key press `currentIndex` is -1. -/
theorem calendar_lookup_out_of_bounds :
    (∀ lib : TimeLib, available_months (calendar_group lib []) = [])
    ∧ (∀ lib : TimeLib, openCalendarWindow lib [] [[]] = [none])
    ∧ available_months (calendar_group stdTime [sampleTask3]) = []
    ∧ openCalendarWindow stdTime [sampleTask3] [[]] = [none]
    ∧ key_pressed [] 0 Key.Right = -1
    ∧ openCalendarWindow stdTime [sampleTask3] [[Key.Right]] = [none] := by
  refine ⟨fun _ => rfl, fun _ => rfl, by decide, by decide, by decide, by decide⟩

/-! ## The task list view's rows -/

/-- With no tag filter and a date order that is neither `asc` nor `desc`, the
rows drawn are the tasks of the store in storage order, so row `k` shows the
task at index `k`. -/
theorem drawTaskList_plain (tasks : List Task) (dateOrder : String)
    (hasc : dateOrder ≠ "asc") (hdesc : dateOrder ≠ "desc") :
    drawTaskList tasks "" dateOrder = tasks := by
  unfold drawTaskList
  rw [if_neg hasc, if_neg hdesc]
  have key : ∀ (l acc : List Task),
      l.foldl
        (fun rows t =>
          if ("" : String) ≠ "" ∧ std_find t.tags "" = t.tags.length then rows
          else rows ++ [t]) acc
        = acc ++ l := by
    intro l
    induction l with
    | nil => simp
    | cons a l ih =>
      intro acc
      rw [List.foldl_cons, if_neg (fun hc => hc.1 rfl), ih]
      simp
  simpa using key tasks []

/-- With a tag filter set, the rows drawn are the tasks (in the chosen order)
that carry the tag: the tasks without it take no row. -/
theorem drawTaskList_filtered (tasks : List Task) (tagFilter dateOrder : String)
    (hfilter : tagFilter ≠ "") (hasc : dateOrder ≠ "asc") (hdesc : dateOrder ≠ "desc") :
    drawTaskList tasks tagFilter dateOrder
      = tasks.filter (fun t => decide (hasTag tagFilter t)) := by
  unfold drawTaskList
  rw [if_neg hasc, if_neg hdesc]
  have key : ∀ (l acc : List Task),
      l.foldl
        (fun rows t =>
          if tagFilter ≠ "" ∧ std_find t.tags tagFilter = t.tags.length then rows
          else rows ++ [t]) acc
        = acc ++ l.filter (fun t => decide (hasTag tagFilter t)) := by
    intro l
    induction l with
    | nil => simp
    | cons a l ih =>
      intro acc
      rw [List.foldl_cons, ih]
      by_cases ha : tagFilter ∈ a.tags
      · have hfound : std_find a.tags tagFilter ≠ a.tags.length :=
          (std_find_ne_length_iff a.tags tagFilter).mpr ha
        rw [if_neg (fun hc => hfound hc.2)]
        simp [hasTag, ha]
      · have hmiss : std_find a.tags tagFilter = a.tags.length := by
          by_contra hc
          exact ha ((std_find_ne_length_iff a.tags tagFilter).mp hc)
        rw [if_pos ⟨hfilter, hmiss⟩]
        simp [hasTag, ha]
  simpa using key tasks []

/-- C17 fails as soon as a tag filter hides a task or a date order moves one.
On the store of the three sample tasks with the tag filter `home`, the rows
show the first and the third task: row 1 shows `Call mom`, while index 1 of
the store holds `Do homework`. The click on row 1's delete button deletes
`Do homework` and leaves `Call mom`; the click on row 1 loads `Do homework`
into the form, and the later save edits it. With no filter and the date order
`desc`, row 0 shows `Call mom` while index 0 of the store holds `Buy milk`. -/
theorem task_row_index_mismatch :
    drawTaskList sampleUser.tasks "home" "" = [sampleTask, sampleTask3]
    ∧ (drawTaskList sampleUser.tasks "home" "")[1]? = some sampleTask3
    ∧ sampleUser.tasks[1]? = some sampleTask2
    ∧ (click_delete sampleUser 1).tasks = [sampleTask, sampleTask3]
    ∧ click_row sampleUser 1 = some sampleTask2
    ∧ (click_save_edit sampleUser 1 taskFeb15).tasks = [sampleTask, taskFeb15, sampleTask3]
    ∧ drawTaskList sampleUser.tasks "" "desc" = [sampleTask3, sampleTask2, sampleTask]
    ∧ (drawTaskList sampleUser.tasks "" "desc")[0]? = some sampleTask3
    ∧ sampleUser.tasks[0]? = some sampleTask
    ∧ (click_delete sampleUser 0).tasks = [sampleTask2, sampleTask3] := by
  decide

end TaskManager
